import Mathlib

/-!
Verification of the domain-name generator repository.

The development shallowly embeds the program's core components:

* `Brute` — the `BruteForceGenerator` (src/generators/brute_generator.py):
  character sets, DNS validation, the closed-form `estimate_count`
  dynamic program, and the exhaustive `generate` enumeration.
* `Markov` — the `MarkovGenerator` (src/markov_generator.py): corpus
  normalization, n-gram training, frequency pruning, and the sampler.
* `Cleanup` — `process_domain` and its helpers (src/cleanup.py): the
  normalization/validation pipeline with the Lithuanian TLD policy.

Python strings are modelled as `List Char` (character classes exact on
ASCII, with a representative table of non-ASCII letters where the Python
runtime's Unicode-aware classification matters),
`collections.Counter` as association lists `List (α × Nat)`, and
randomness as an explicitly threaded stream of naturals.
-/

namespace Brute

/-- Character-set selector, mirroring `BruteForceGenerator.CHARACTER_SETS`. -/
inductive CharType where
  | numbers
  | letters
  | alphanumeric
deriving DecidableEq

/-- Hyphen policy, mirroring the `hyphen_mode` argument. -/
inductive HyphenMode where
  | withHyphen
  | withoutHyphen
  | onlyHyphen
deriving DecidableEq

/-- Source `CHARACTER_SETS[char_type]`. -/
def baseChars : CharType → List Char
  | CharType.numbers => "0123456789".toList
  | CharType.letters => "abcdefghijklmnopqrstuvwxyz".toList
  | CharType.alphanumeric => "abcdefghijklmnopqrstuvwxyz0123456789".toList

/-- Source `get_character_set`: append `'-'` when the hyphen mode is `with` or `only`. -/
def charset (ct : CharType) (hm : HyphenMode) : List Char :=
  if hm = HyphenMode.withHyphen ∨ hm = HyphenMode.onlyHyphen then
    baseChars ct ++ ['-']
  else
    baseChars ct

/-- Source `domain.startswith('-')`. -/
def startsHyphen : List Char → Bool
  | [] => false
  | c :: _ => c == '-'

/-- Source `domain.endswith('-')`. -/
def endsHyphen : List Char → Bool
  | [] => false
  | [c] => c == '-'
  | _ :: b :: r => endsHyphen (b :: r)

/-- Source `'--' in domain`. -/
def hasDoubleHyphen : List Char → Bool
  | [] => false
  | [_] => false
  | a :: b :: rest => (a == '-' && b == '-') || hasDoubleHyphen (b :: rest)

/-- Source `BruteForceGenerator.validate_domain`, with the generator's
`hyphen_mode`, `min_len` and `max_len` made explicit parameters. -/
def validate_domain (hm : HyphenMode) (minLen maxLen : Nat) (d : List Char) : Bool :=
  if startsHyphen d || endsHyphen d then false
  else if hasDoubleHyphen d then false
  else if hm = HyphenMode.onlyHyphen && !(d.contains '-') then false
  else if d.length < minLen || d.length > maxLen then false
  else true

/-- Source `itertools.product(charset, repeat=L)`: every length-`L` tuple over
`cs`, in lexicographic order (leftmost position varies slowest). -/
def tuples (cs : List Char) : Nat → List (List Char)
  | 0 => [[]]
  | n + 1 => cs.flatMap (fun c => (tuples cs n).map (c :: ·))

/-- One step of the `estimate_count` dynamic program: from
`(dp_h, dp_nh)` to `(dp_nh, dp_h * n + dp_nh * n)`. -/
def dpStep (n : Nat) (p : Nat × Nat) : Nat × Nat := (p.2, p.1 * n + p.2 * n)

/-- The `(dp_h, dp_nh)` pair after processing length `L ≥ 1`
(`dp_h = 0, dp_nh = n` at `L = 1`, then `L - 1` iterations). -/
def dpPair (n L : Nat) : Nat × Nat := (dpStep n)^[L - 1] (0, n)

/-- The per-length contribution inside `estimate_count`'s loop body. -/
def perLength (n : Nat) (hm : HyphenMode) (L : Nat) : Nat :=
  match hm with
  | HyphenMode.withoutHyphen => n ^ L
  | HyphenMode.withHyphen => if L = 0 then 0 else (dpPair n L).2
  | HyphenMode.onlyHyphen => if L < 2 then 0 else (dpPair n L).2 - n ^ L

/-- Source `BruteForceGenerator.estimate_count`: sum of the per-length counts
over `range(min_len, max_len + 1)`. -/
def estimate_count (ct : CharType) (hm : HyphenMode) (minLen maxLen : Nat) : Nat :=
  ((List.range' minLen (maxLen + 1 - minLen)).map
    (perLength (baseChars ct).length hm)).sum

/-- Source `BruteForceGenerator.generate`: for each length in range, every
tuple over the charset that passes `validate_domain`, suffixed with
`"." + tld`. -/
def generate (ct : CharType) (hm : HyphenMode) (minLen maxLen : Nat)
    (tld : List Char) : List (List Char) :=
  (List.range' minLen (maxLen + 1 - minLen)).flatMap
    (fun L => ((tuples (charset ct hm) L).filter (validate_domain hm minLen maxLen)).map
      (· ++ '.' :: tld))

theorem tuples_length (cs : List Char) (n : Nat) :
    (tuples cs n).length = cs.length ^ n := by
  induction n with
  | zero => simp [tuples]
  | succ n ih =>
    simp only [tuples, List.length_flatMap]
    have hc : (List.length ∘ fun c : Char => (tuples cs n).map (c :: ·)) =
        fun _ : Char => cs.length ^ n := by
      funext c; simp [ih]
    rw [hc, List.map_const', List.sum_replicate, smul_eq_mul, pow_succ, Nat.mul_comm]

theorem mem_tuples_length {cs : List Char} {n : Nat} {t : List Char}
    (h : t ∈ tuples cs n) : t.length = n := by
  induction n generalizing t with
  | zero => simp [tuples] at h; simp [h]
  | succ n ih =>
    simp only [tuples, List.mem_flatMap, List.mem_map] at h
    obtain ⟨c, _, t', ht', rfl⟩ := h
    simp [ih ht']

theorem countP_flatMap {α β : Type} (p : β → Bool) (l : List α) (f : α → List β) :
    (l.flatMap f).countP p = (l.map (fun a => (f a).countP p)).sum := by
  induction l with
  | nil => simp
  | cons a l ih => simp [List.flatMap_cons, List.countP_append, ih]

theorem sum_map_ite {α : Type} (l : List α) (q : α → Bool) :
    (l.map (fun a => if q a then 1 else 0)).sum = l.countP q := by
  induction l with
  | nil => simp
  | cons a l ih =>
    simp only [List.map_cons, List.sum_cons, List.countP_cons, ih]
    cases h : q a <;> simp [h] <;> omega

theorem countP_split {α : Type} (l : List α) (q s : α → Bool) :
    l.countP q = l.countP (fun a => q a && s a) + l.countP (fun a => q a && !s a) := by
  induction l with
  | nil => simp
  | cons a l ih =>
    simp only [List.countP_cons, ih]
    cases hq : q a <;> cases hs : s a <;> simp [hq, hs] <;> omega

theorem dpPair_succ (n m : Nat) (hm : 1 ≤ m) :
    dpPair n (m + 1) = dpStep n (dpPair n m) := by
  unfold dpPair
  have h : m + 1 - 1 = (m - 1) + 1 := by omega
  rw [h, Function.iterate_succ_apply']

theorem endsHyphen_cons (c : Char) {t : List Char} (ht : t ≠ []) :
    endsHyphen (c :: t) = endsHyphen t := by
  cases t with
  | nil => exact absurd rfl ht
  | cons b r => rfl

theorem pA_cons_base {c : Char} (hc : (c == '-') = false) (t : List Char) :
    ((!endsHyphen (c :: t) && !hasDoubleHyphen (c :: t)) && startsHyphen (c :: t)) = false := by
  show (_ && (c == '-')) = false
  rw [hc, Bool.and_false]

theorem pB_cons_base {c : Char} (hc : (c == '-') = false) {t : List Char} (ht : t ≠ []) :
    ((!endsHyphen (c :: t) && !hasDoubleHyphen (c :: t)) && !startsHyphen (c :: t)) =
      (!endsHyphen t && !hasDoubleHyphen t) := by
  cases t with
  | nil => exact absurd rfl ht
  | cons b r =>
    show ((!endsHyphen (b :: r) && !((c == '-' && b == '-') || hasDoubleHyphen (b :: r)))
      && !(c == '-')) = _
    rw [hc]
    simp

theorem pA_cons_hyphen {t : List Char} (ht : t ≠ []) :
    ((!endsHyphen ('-' :: t) && !hasDoubleHyphen ('-' :: t)) && startsHyphen ('-' :: t)) =
      ((!endsHyphen t && !hasDoubleHyphen t) && !startsHyphen t) := by
  cases t with
  | nil => exact absurd rfl ht
  | cons b r =>
    show ((!endsHyphen (b :: r) && !(('-' == '-' && b == '-') || hasDoubleHyphen (b :: r)))
      && ('-' == '-')) = ((!endsHyphen (b :: r) && !hasDoubleHyphen (b :: r)) && !(b == '-'))
    have he : ∀ e h s : Bool, ((!e && !((true && s) || h)) && true) = ((!e && !h) && !s) := by
      decide
    have hd : ('-' == '-' : Bool) = true := by decide
    rw [hd]
    exact he (endsHyphen (b :: r)) (hasDoubleHyphen (b :: r)) (b == '-')

theorem pB_cons_hyphen (t : List Char) :
    ((!endsHyphen ('-' :: t) && !hasDoubleHyphen ('-' :: t)) && !startsHyphen ('-' :: t)) =
      false := by
  show (_ && !('-' == '-')) = false
  have hd : ('-' == '-' : Bool) = true := by decide
  rw [hd]
  simp

/-- Joint characterisation of the `estimate_count` dynamic program: among all
length-`L` tuples over `base ++ ['-']`, the pair `dpPair` counts those with no
trailing hyphen and no doubled hyphen, split by whether they start with a
hyphen. -/
theorem dp_count (base : List Char) (hb : ('-' : Char) ∉ base) :
    ∀ L : Nat, 1 ≤ L →
    ((tuples (base ++ ['-']) L).countP
        (fun d => (!endsHyphen d && !hasDoubleHyphen d) && startsHyphen d) =
      (dpPair base.length L).1) ∧
    ((tuples (base ++ ['-']) L).countP
        (fun d => (!endsHyphen d && !hasDoubleHyphen d) && !startsHyphen d) =
      (dpPair base.length L).2) := by
  intro L
  induction L with
  | zero => omega
  | succ m ih =>
    intro _
    by_cases hm : m = 0
    · subst hm
      have h1 : tuples (base ++ ['-']) 1 = (base ++ ['-']).flatMap (fun c => [[c]]) := by
        simp [tuples]
      rw [h1, countP_flatMap, countP_flatMap]
      constructor
      · have hz : ∀ c : Char,
            (([[c]] : List (List Char)).countP
              (fun d => (!endsHyphen d && !hasDoubleHyphen d) && startsHyphen d)) = 0 := by
          intro c
          have : ((!endsHyphen [c] && !hasDoubleHyphen [c]) && startsHyphen [c]) = false := by
            show ((!(c == '-') && !false) && (c == '-')) = false
            cases h : (c == '-') <;> simp [h]
          simp [List.countP_cons, this]
        have hmap : ((base ++ ['-']).map (fun c =>
            (([[c]] : List (List Char)).countP
              (fun d => (!endsHyphen d && !hasDoubleHyphen d) && startsHyphen d)))) =
            (base ++ ['-']).map (fun _ => 0) := by
          apply List.map_congr_left
          intro c _
          exact hz c
        rw [hmap, List.map_const', List.sum_replicate]
        simp [dpPair]
      · have hz : ∀ c : Char,
            (([[c]] : List (List Char)).countP
              (fun d => (!endsHyphen d && !hasDoubleHyphen d) && !startsHyphen d)) =
            (if (c == '-') = false then 1 else 0) := by
          intro c
          have : ((!endsHyphen [c] && !hasDoubleHyphen [c]) && !startsHyphen [c]) =
              !(c == '-') := by
            show ((!(c == '-') && !false) && !(c == '-')) = !(c == '-')
            cases h : (c == '-') <;> simp [h]
          cases h : (c == '-') <;> simp [List.countP_cons, this, h]
        rw [List.map_append, List.sum_append]
        have hmapb : (base.map (fun c =>
            (([[c]] : List (List Char)).countP
              (fun d => (!endsHyphen d && !hasDoubleHyphen d) && !startsHyphen d)))) =
            base.map (fun _ => 1) := by
          apply List.map_congr_left
          intro c hcmem
          rw [hz c]
          have : (c == '-') = false := by
            cases h : (c == '-')
            · rfl
            · exact absurd (by simpa using (beq_iff_eq.mp h) ▸ hcmem) hb
          simp [this]
        have hmaph : ((['-'] : List Char).map (fun c =>
            (([[c]] : List (List Char)).countP
              (fun d => (!endsHyphen d && !hasDoubleHyphen d) && !startsHyphen d)))) = [0] := by
          simp [hz]
        rw [hmapb, hmaph, List.map_const', List.sum_replicate]
        simp [dpPair]
    · have hm1 : 1 ≤ m := by omega
      obtain ⟨ihA, ihB⟩ := ih hm1
      have hne : ∀ t ∈ tuples (base ++ ['-']) m, t ≠ [] := by
        intro t htm
        have := mem_tuples_length htm
        intro hnil
        rw [hnil] at this
        simp at this
        omega
      have hstep : tuples (base ++ ['-']) (m + 1) =
          (base ++ ['-']).flatMap (fun c => (tuples (base ++ ['-']) m).map (c :: ·)) := rfl
      have hAc : ∀ c ∈ base,
          (((tuples (base ++ ['-']) m).map (c :: ·)).countP
            (fun d => (!endsHyphen d && !hasDoubleHyphen d) && startsHyphen d)) = 0 := by
        intro c hcmem
        have hc : (c == '-') = false := by
          cases h : (c == '-')
          · rfl
          · exact absurd (by simpa using (beq_iff_eq.mp h) ▸ hcmem) hb
        rw [List.countP_map]
        rw [List.countP_eq_length_filter, List.filter_eq_nil_iff.mpr, List.length_nil]
        intro t _
        simp only [Function.comp]
        rw [pA_cons_base hc]
        simp
      have hBc : ∀ c ∈ base,
          (((tuples (base ++ ['-']) m).map (c :: ·)).countP
            (fun d => (!endsHyphen d && !hasDoubleHyphen d) && !startsHyphen d)) =
          (dpPair base.length m).1 + (dpPair base.length m).2 := by
        intro c hcmem
        have hc : (c == '-') = false := by
          cases h : (c == '-')
          · rfl
          · exact absurd (by simpa using (beq_iff_eq.mp h) ▸ hcmem) hb
        rw [List.countP_map]
        have hcongr : ((tuples (base ++ ['-']) m).countP
            ((fun d => (!endsHyphen d && !hasDoubleHyphen d) && !startsHyphen d) ∘ (c :: ·))) =
            ((tuples (base ++ ['-']) m).countP
              (fun t => !endsHyphen t && !hasDoubleHyphen t)) := by
          apply List.countP_congr
          intro t htm
          simp only [Function.comp]
          rw [pB_cons_base hc (hne t htm)]
        rw [hcongr, countP_split _ _ startsHyphen, ← ihA, ← ihB, Nat.add_comm]
      have hAh : (((tuples (base ++ ['-']) m).map ('-' :: ·)).countP
          (fun d => (!endsHyphen d && !hasDoubleHyphen d) && startsHyphen d)) =
          (dpPair base.length m).2 := by
        rw [List.countP_map]
        have hcongr : ((tuples (base ++ ['-']) m).countP
            ((fun d => (!endsHyphen d && !hasDoubleHyphen d) && startsHyphen d) ∘ ('-' :: ·))) =
            ((tuples (base ++ ['-']) m).countP
              (fun d => (!endsHyphen d && !hasDoubleHyphen d) && !startsHyphen d)) := by
          apply List.countP_congr
          intro t htm
          simp only [Function.comp]
          rw [pA_cons_hyphen (hne t htm)]
        rw [hcongr, ihB]
      have hBh : (((tuples (base ++ ['-']) m).map ('-' :: ·)).countP
          (fun d => (!endsHyphen d && !hasDoubleHyphen d) && !startsHyphen d)) = 0 := by
        rw [List.countP_map]
        rw [List.countP_eq_length_filter, List.filter_eq_nil_iff.mpr, List.length_nil]
        intro t _
        simp only [Function.comp]
        rw [pB_cons_hyphen]
        simp
      constructor
      · rw [hstep, countP_flatMap, List.map_append, List.sum_append]
        have hmapb : (base.map (fun c =>
            (((tuples (base ++ ['-']) m).map (c :: ·)).countP
              (fun d => (!endsHyphen d && !hasDoubleHyphen d) && startsHyphen d)))) =
            base.map (fun _ => 0) :=
          List.map_congr_left (fun c hc => hAc c hc)
        rw [hmapb, List.map_const', List.sum_replicate]
        have : ((['-'] : List Char).map (fun c =>
            (((tuples (base ++ ['-']) m).map (c :: ·)).countP
              (fun d => (!endsHyphen d && !hasDoubleHyphen d) && startsHyphen d)))) =
            [(dpPair base.length m).2] := by
          simp only [List.map_cons, List.map_nil, hAh]
        rw [this, dpPair_succ _ _ hm1]
        simp [dpStep]
      · rw [hstep, countP_flatMap, List.map_append, List.sum_append]
        have hmapb : (base.map (fun c =>
            (((tuples (base ++ ['-']) m).map (c :: ·)).countP
              (fun d => (!endsHyphen d && !hasDoubleHyphen d) && !startsHyphen d)))) =
            base.map (fun _ => (dpPair base.length m).1 + (dpPair base.length m).2) :=
          List.map_congr_left (fun c hc => hBc c hc)
        rw [hmapb, List.map_const', List.sum_replicate]
        have : ((['-'] : List Char).map (fun c =>
            (((tuples (base ++ ['-']) m).map (c :: ·)).countP
              (fun d => (!endsHyphen d && !hasDoubleHyphen d) && !startsHyphen d)))) =
            [0] := by
          simp only [List.map_cons, List.map_nil, hBh]
        rw [this, dpPair_succ _ _ hm1]
        simp [dpStep]
        ring

theorem hyphen_not_mem_base (ct : CharType) : ('-' : Char) ∉ baseChars ct := by
  cases ct <;> decide

theorem mem_tuples_subset {cs : List Char} {n : Nat} {t : List Char}
    (h : t ∈ tuples cs n) : ∀ c ∈ t, c ∈ cs := by
  induction n generalizing t with
  | zero =>
    simp [tuples] at h
    simp [h]
  | succ n ih =>
    simp only [tuples, List.mem_flatMap, List.mem_map] at h
    obtain ⟨c, hc, t', ht', rfl⟩ := h
    intro x hx
    rcases List.mem_cons.mp hx with h | h
    · exact h ▸ hc
    · exact ih ht' x h

theorem contains_eq_false_of_not_mem {d : List Char} (h : ('-' : Char) ∉ d) :
    d.contains '-' = false := by
  cases hc : d.contains '-'
  · rfl
  · exact absurd (List.mem_of_elem_eq_true hc) h

theorem startsHyphen_of_no_hyphen {d : List Char} (h : ('-' : Char) ∉ d) :
    startsHyphen d = false := by
  cases d with
  | nil => rfl
  | cons c t =>
    show (c == '-') = false
    simp only [beq_eq_false_iff_ne, ne_eq]
    intro hx
    exact h (hx ▸ List.mem_cons_self c t)

theorem endsHyphen_of_no_hyphen : ∀ {d : List Char}, ('-' : Char) ∉ d → endsHyphen d = false
  | [], _ => rfl
  | [c], h => by
    show (c == '-') = false
    simp only [beq_eq_false_iff_ne, ne_eq]
    intro hx
    exact h (by simp [hx])
  | a :: b :: r, h => by
    show endsHyphen (b :: r) = false
    exact endsHyphen_of_no_hyphen (fun hm => h (List.mem_cons_of_mem a hm))

theorem hasDoubleHyphen_of_no_hyphen : ∀ {d : List Char},
    ('-' : Char) ∉ d → hasDoubleHyphen d = false
  | [], _ => rfl
  | [_], _ => rfl
  | a :: b :: r, h => by
    show ((a == '-' && b == '-') || hasDoubleHyphen (b :: r)) = false
    have ha : (a == '-') = false := by
      simp only [beq_eq_false_iff_ne, ne_eq]
      intro hx
      exact h (hx ▸ List.mem_cons_self a (b :: r))
    rw [ha, Bool.false_and, Bool.false_or]
    exact hasDoubleHyphen_of_no_hyphen (fun hm => h (List.mem_cons_of_mem a hm))

theorem validate_eq_with {minLen maxLen : Nat} {d : List Char}
    (hmin : minLen ≤ d.length) (hmax : d.length ≤ maxLen) :
    validate_domain HyphenMode.withHyphen minLen maxLen d =
      ((!endsHyphen d && !hasDoubleHyphen d) && !startsHyphen d) := by
  unfold validate_domain
  have h1 : ¬ (d.length < minLen || d.length > maxLen) = true := by
    simp only [Bool.or_eq_true, decide_eq_true_eq]
    omega
  cases hs : startsHyphen d <;> cases he : endsHyphen d <;> cases hd : hasDoubleHyphen d <;>
    simp [hs, he, hd, h1]

theorem validate_eq_only {minLen maxLen : Nat} {d : List Char}
    (hmin : minLen ≤ d.length) (hmax : d.length ≤ maxLen) :
    validate_domain HyphenMode.onlyHyphen minLen maxLen d =
      (((!endsHyphen d && !hasDoubleHyphen d) && !startsHyphen d) && d.contains '-') := by
  unfold validate_domain
  have h1 : ¬ (d.length < minLen || d.length > maxLen) = true := by
    simp only [Bool.or_eq_true, decide_eq_true_eq]
    omega
  cases hs : startsHyphen d <;> cases he : endsHyphen d <;> cases hd : hasDoubleHyphen d <;>
    cases hc : d.contains '-' <;> simp [hs, he, hd, hc, h1]

theorem validate_eq_without {minLen maxLen : Nat} {d : List Char}
    (hmin : minLen ≤ d.length) (hmax : d.length ≤ maxLen) (hnh : ('-' : Char) ∉ d) :
    validate_domain HyphenMode.withoutHyphen minLen maxLen d = true := by
  unfold validate_domain
  have h1 : ¬ (d.length < minLen || d.length > maxLen) = true := by
    simp only [Bool.or_eq_true, decide_eq_true_eq]
    omega
  simp [startsHyphen_of_no_hyphen hnh, endsHyphen_of_no_hyphen hnh,
    hasDoubleHyphen_of_no_hyphen hnh, h1]

theorem countP_no_hyphen (base : List Char) (hb : ('-' : Char) ∉ base) :
    ∀ L : Nat, (tuples (base ++ ['-']) L).countP (fun d => !(d.contains '-')) =
      base.length ^ L := by
  intro L
  induction L with
  | zero => simp [tuples]
  | succ m ih =>
    have hstep : tuples (base ++ ['-']) (m + 1) =
        (base ++ ['-']).flatMap (fun c => (tuples (base ++ ['-']) m).map (c :: ·)) := rfl
    rw [hstep, countP_flatMap, List.map_append, List.sum_append]
    have hmapb : (base.map (fun c =>
        (((tuples (base ++ ['-']) m).map (c :: ·)).countP (fun d => !(d.contains '-'))))) =
        base.map (fun _ => base.length ^ m) := by
      apply List.map_congr_left
      intro c hcmem
      rw [List.countP_map]
      have : ((tuples (base ++ ['-']) m).countP ((fun d => !(d.contains '-')) ∘ (c :: ·))) =
          ((tuples (base ++ ['-']) m).countP (fun d => !(d.contains '-'))) := by
        apply List.countP_congr
        intro t _
        simp only [Function.comp]
        have hc : (('-' : Char) == c) = false := by
          simp only [beq_eq_false_iff_ne, ne_eq]
          intro hx
          exact hb (hx ▸ hcmem)
        show (!((c :: t).contains '-')) = true ↔ _
        rw [List.contains_cons, hc, Bool.false_or]
      rw [this, ih]
    have hmaph : ((['-'] : List Char).map (fun c =>
        (((tuples (base ++ ['-']) m).map (c :: ·)).countP (fun d => !(d.contains '-'))))) =
        [0] := by
      simp only [List.map_cons, List.map_nil]
      congr 1
      rw [List.countP_map]
      rw [List.countP_eq_length_filter, List.filter_eq_nil_iff.mpr, List.length_nil]
      intro t _
      simp only [Function.comp]
      rw [List.contains_cons]
      simp
    rw [hmapb, hmaph, List.map_const', List.sum_replicate]
    simp [pow_succ, Nat.mul_comm]

/-- Per length `L` in the configured range, the `estimate_count` formula equals
the number of tuples surviving `validate_domain`. -/
theorem perLength_eq_filter (ct : CharType) (hm : HyphenMode) (minLen maxLen L : Nat)
    (h0 : 1 ≤ minLen) (h1 : minLen ≤ L) (h2 : L ≤ maxLen) :
    perLength (baseChars ct).length hm L =
      ((tuples (charset ct hm) L).filter (validate_domain hm minLen maxLen)).length := by
  have hL1 : 1 ≤ L := le_trans h0 h1
  have hb := hyphen_not_mem_base ct
  cases hm with
  | withoutHyphen =>
    have hcs : charset ct HyphenMode.withoutHyphen = baseChars ct := by
      simp [charset]
    rw [hcs, List.filter_eq_self.mpr, perLength, tuples_length]
    intro d hd
    have hlen : d.length = L := mem_tuples_length hd
    have hnh : ('-' : Char) ∉ d := fun hmem => hb (mem_tuples_subset hd '-' hmem)
    exact validate_eq_without (hlen ▸ h1) (hlen ▸ h2) hnh
  | withHyphen =>
    have hcs : charset ct HyphenMode.withHyphen = baseChars ct ++ ['-'] := by
      simp [charset]
    rw [hcs, ← List.countP_eq_length_filter]
    have hcongr : ((tuples (baseChars ct ++ ['-']) L).countP
        (validate_domain HyphenMode.withHyphen minLen maxLen)) =
        ((tuples (baseChars ct ++ ['-']) L).countP
          (fun d => (!endsHyphen d && !hasDoubleHyphen d) && !startsHyphen d)) := by
      apply List.countP_congr
      intro d hd
      have hlen : d.length = L := mem_tuples_length hd
      rw [validate_eq_with (hlen ▸ h1) (hlen ▸ h2)]
    rw [hcongr, (dp_count (baseChars ct) hb L hL1).2, perLength]
    rw [if_neg (by omega)]
  | onlyHyphen =>
    have hcs : charset ct HyphenMode.onlyHyphen = baseChars ct ++ ['-'] := by
      simp [charset]
    rw [hcs, ← List.countP_eq_length_filter]
    have hcongr : ((tuples (baseChars ct ++ ['-']) L).countP
        (validate_domain HyphenMode.onlyHyphen minLen maxLen)) =
        ((tuples (baseChars ct ++ ['-']) L).countP
          (fun d => ((!endsHyphen d && !hasDoubleHyphen d) && !startsHyphen d)
            && d.contains '-')) := by
      apply List.countP_congr
      intro d hd
      have hlen : d.length = L := mem_tuples_length hd
      rw [validate_eq_only (hlen ▸ h1) (hlen ▸ h2)]
    rw [hcongr]
    have hsplit := countP_split (tuples (baseChars ct ++ ['-']) L)
      (fun d => (!endsHyphen d && !hasDoubleHyphen d) && !startsHyphen d)
      (fun d => d.contains '-')
    have hfree : ((tuples (baseChars ct ++ ['-']) L).countP
        (fun d => ((!endsHyphen d && !hasDoubleHyphen d) && !startsHyphen d)
          && !(d.contains '-'))) =
        ((tuples (baseChars ct ++ ['-']) L).countP (fun d => !(d.contains '-'))) := by
      apply List.countP_congr
      intro d _
      cases hc : d.contains '-'
      · have hnm : ('-' : Char) ∉ d := by
          intro hmem
          have h2 : d.contains '-' = true := List.elem_eq_true_of_mem hmem
          rw [hc] at h2
          cases h2
        simp [startsHyphen_of_no_hyphen hnm, endsHyphen_of_no_hyphen hnm,
          hasDoubleHyphen_of_no_hyphen hnm, hc]
      · simp [hc]
    rw [hfree, countP_no_hyphen (baseChars ct) hb L] at hsplit
    rw [(dp_count (baseChars ct) hb L hL1).2] at hsplit
    have hcount : ((tuples (baseChars ct ++ ['-']) L).countP
        (fun d => ((!endsHyphen d && !hasDoubleHyphen d) && !startsHyphen d)
          && d.contains '-')) =
        (dpPair (baseChars ct).length L).2 - (baseChars ct).length ^ L := by
      omega
    rw [hcount, perLength]
    by_cases hL2 : L < 2
    · have hLeq : L = 1 := by omega
      subst hLeq
      rw [if_pos (by omega)]
      simp [dpPair]
    · rw [if_neg (by omega)]

/-- The general count equality behind C2, for every valid configuration. -/
theorem estimate_eq_generate (ct : CharType) (hm : HyphenMode) (minLen maxLen : Nat)
    (tld : List Char) (h0 : 1 ≤ minLen) (h12 : minLen ≤ maxLen) :
    estimate_count ct hm minLen maxLen = (generate ct hm minLen maxLen tld).length := by
  unfold estimate_count generate
  rw [List.length_flatMap]
  congr 1
  apply List.map_congr_left
  intro L hL
  have hb := List.mem_range'_1.mp hL
  have h1 : minLen ≤ L := hb.1
  have h2 : L ≤ maxLen := by omega
  simp only [Function.comp, List.length_map]
  exact perLength_eq_filter ct hm minLen maxLen L h0 h1 h2

/-- C2: for every valid `BruteForceGenerator` configuration (`char_type` in
{numbers, letters, alphanumeric}, `1 ≤ min_len ≤ max_len ≤ 63`, `hyphen_mode`
in {with, without, only}), `estimate_count()` equals the exact number of
strings yielded by `generate()`; in particular for `numbers`,
`min_len = max_len = 1`, `hyphen_mode = without` the count is 10 and
`generate` yields exactly `"0.lt"` through `"9.lt"` in ascending order. -/
theorem estimate_count_exact :
    (∀ (ct : CharType) (hm : HyphenMode) (minLen maxLen : Nat) (tld : List Char),
      1 ≤ minLen → minLen ≤ maxLen → maxLen ≤ 63 →
      estimate_count ct hm minLen maxLen = (generate ct hm minLen maxLen tld).length) ∧
    estimate_count CharType.numbers HyphenMode.withoutHyphen 1 1 = 10 ∧
    generate CharType.numbers HyphenMode.withoutHyphen 1 1 "lt".toList =
      ["0.lt", "1.lt", "2.lt", "3.lt", "4.lt",
        "5.lt", "6.lt", "7.lt", "8.lt", "9.lt"].map String.toList := by
  refine ⟨fun ct hm minLen maxLen tld h0 h12 _ =>
    estimate_eq_generate ct hm minLen maxLen tld h0 h12, by decide, by decide⟩

/-- Witness instantiating `estimate_count_exact` at a concrete configuration. -/
theorem estimate_count_exact_witness :
    (1 ≤ 2 ∧ 2 ≤ 3 ∧ 3 ≤ 63) ∧
      estimate_count CharType.letters HyphenMode.onlyHyphen 2 3 =
        (generate CharType.letters HyphenMode.onlyHyphen 2 3 "lt".toList).length :=
  ⟨by decide, estimate_count_exact.1 CharType.letters HyphenMode.onlyHyphen 2 3
    "lt".toList (by decide) (by decide) (by decide)⟩

end Brute

theorem char_toNat_ofNat {n : Nat} (h : n.isValidChar) : (Char.ofNat n).toNat = n := by
  rw [Char.ofNat, dif_pos h]
  cases h with
  | inl h1 => rfl
  | inr h1 => rfl

theorem toLower_isUpper_false (c : Char) : (Char.toLower c).isUpper = false := by
  rw [Char.toLower]
  show (if c.toNat ≥ 65 ∧ c.toNat ≤ 90 then Char.ofNat (c.toNat + 32) else c).isUpper = false
  by_cases h : c.toNat ≥ 65 ∧ c.toNat ≤ 90
  · rw [if_pos h]
    have hv : (c.toNat + 32).isValidChar := by
      left
      have := h.2
      omega
    have ht : (Char.ofNat (c.toNat + 32)).toNat = c.toNat + 32 := char_toNat_ofNat hv
    simp only [Char.isUpper]
    have hle : ¬ ((Char.ofNat (c.toNat + 32)).val ≤ 90) := by
      show ¬ ((Char.ofNat (c.toNat + 32)).toNat ≤ 90)
      rw [ht]
      omega
    simp [hle]
  · rw [if_neg h]
    simp only [Char.isUpper]
    by_cases h1 : (c.val ≥ 65)
    · have h2 : ¬ (c.val ≤ 90) := by
        show ¬ (c.toNat ≤ 90)
        have h1' : 65 ≤ c.toNat := h1
        omega
      simp [h2]
    · simp [h1]

theorem toLower_idem (c : Char) : Char.toLower (Char.toLower c) = Char.toLower c := by
  have h := toLower_isUpper_false c
  rw [Char.toLower]
  show (if (Char.toLower c).toNat ≥ 65 ∧ (Char.toLower c).toNat ≤ 90 then
    Char.ofNat ((Char.toLower c).toNat + 32) else Char.toLower c) = Char.toLower c
  rw [if_neg]
  intro hc
  simp only [Char.isUpper] at h
  have h1 : ((Char.toLower c).val ≥ 65) := hc.1
  have h2 : ((Char.toLower c).val ≤ 90) := hc.2
  simp [h1, h2] at h

theorem isAlphanum_not_upper {c : Char} (hu : c.isUpper = false) (h : c.isAlphanum = true) :
    (c.isLower || c.isDigit) = true := by
  simp only [Char.isAlphanum, Char.isAlpha, hu, Bool.false_or] at h
  exact h

namespace Markov

/-- Source `collections.Counter.__getitem__` over an association-list counter. -/
def cget {α : Type} [DecidableEq α] : List (α × Nat) → α → Nat
  | [], _ => 0
  | (a, n) :: rest, k => if a = k then n else cget rest k

/-- Source `counter[k] += 1` over an association-list counter (missing keys get 1). -/
def cincr {α : Type} [DecidableEq α] : List (α × Nat) → α → List (α × Nat)
  | [], k => [(k, 1)]
  | (a, n) :: rest, k => if a = k then (a, n + 1) :: rest else (a, n) :: cincr rest k

/-- Membership test for a key in the transitions dictionary
(`state in self.transitions`). -/
def tlookup : List (List Char × List (Char × Nat)) → List Char → Option (List (Char × Nat))
  | [], _ => none
  | (a, ctr) :: rest, k => if a = k then some ctr else tlookup rest k

/-- Source `self.transitions[state][next_char] += 1` (defaultdict-of-Counter update). -/
def tincr : List (List Char × List (Char × Nat)) → List Char → Char →
    List (List Char × List (Char × Nat))
  | [], s, c => [(s, [(c, 1)])]
  | (a, ctr) :: rest, s, c =>
    if a = s then (a, cincr ctr c) :: rest else (a, ctr) :: tincr rest s c

/-- Source `self.transitions[state][next_char]` read-out, 0 when absent. -/
def tget (tr : List (List Char × List (Char × Nat))) (s : List Char) (c : Char) : Nat :=
  match tlookup tr s with
  | none => 0
  | some ctr => cget ctr c

/-- The trained `MarkovGenerator` model state: `self.transitions`,
`self.start_states`, `self.training_set`. -/
structure Model where
  transitions : List (List Char × List (Char × Nat))
  start_states : List (List Char × Nat)
  training_set : List (List Char)
deriving DecidableEq

/-- Source `str.strip()` (whitespace trim on both ends). -/
def trim (l : List Char) : List Char :=
  ((l.dropWhile Char.isWhitespace).reverse.dropWhile Char.isWhitespace).reverse

/-- The TLD suffixes recognised by `_normalize_input`, in source order. -/
def tldList : List (List Char) := [".lt", ".com", ".net", ".org", ".io", ".co"].map String.toList

/-- The `for tld in [...]` loop: drop the first matching suffix, then stop. -/
def stripTld : List (List Char) → List Char → List Char
  | [], t => t
  | s :: rest, t => if s.isSuffixOf t then t.take (t.length - s.length) else stripTld rest t

/-- Source `text.strip('-')`. -/
def stripHyphens (t : List Char) : List Char :=
  ((t.dropWhile (· == '-')).reverse.dropWhile (· == '-')).reverse

/-- Modelled from the Python runtime: the upper/lower pairs of non-ASCII
letters that Unicode-aware `str.lower()`/`str.isalnum()` handle, as a
representative fixed table (the Lithuanian alphabet, the non-ASCII letters
this corpus trainer actually meets). -/
def unicodeLetters : List (Char × Char) :=
  [('Ą', 'ą'), ('Č', 'č'), ('Ę', 'ę'), ('Ė', 'ė'), ('Į', 'į'),
    ('Š', 'š'), ('Ų', 'ų'), ('Ū', 'ū'), ('Ž', 'ž')]

/-- Modelled from the Python runtime: Unicode-aware `str.isalnum()` —
exact on ASCII, and true on the non-ASCII letters of `unicodeLetters`. -/
def pyIsAlnum (c : Char) : Bool :=
  c.isAlphanum || unicodeLetters.any (fun p => p.1 == c || p.2 == c)

/-- Modelled from the Python runtime: Unicode-aware `str.lower()` — exact
on ASCII, and mapping the uppercase letters of `unicodeLetters` to their
lowercase forms. -/
def pyLower (c : Char) : Char :=
  match unicodeLetters.find? (fun p => p.1 == c) with
  | some p => p.2
  | none => Char.toLower c

/-- Source `MarkovGenerator._normalize_input` (`.lower()` and `isalnum()`
are Unicode-aware, so non-ASCII alphanumerics survive the filter). -/
def normalize_input (line : List Char) : List Char :=
  stripHyphens (((stripTld tldList ((trim line).map pyLower)).filter
    (fun c => pyIsAlnum c || c == '-')))

/-- The transition-extraction loop in `_train`: for every window of width
`order` followed by a character, bump that transition's frequency. -/
def addWindows (order : Nat) (tr : List (List Char × List (Char × Nat))) :
    List Char → List (List Char × List (Char × Nat))
  | [] => tr
  | c :: rest =>
    match (c :: rest).drop order with
    | [] => tr
    | n :: _ => addWindows order (tincr tr ((c :: rest).take order) n) rest

/-- The accepted-line body of `_train`'s loop: pad with `order` boundary
markers and a terminator, record the start state, the windows, and the
deduplicated training-set entry. -/
def trainValid (order : Nat) (m : Model) (text : List Char) : Model :=
  { transitions := addWindows order m.transitions (List.replicate order '^' ++ text ++ ['$']),
    start_states := cincr m.start_states
      ((List.replicate order '^' ++ text ++ ['$']).take order),
    training_set :=
      if text ∈ m.training_set then m.training_set else m.training_set ++ [text] }

/-- Processing of one corpus line inside `_train`'s loop body. -/
def trainLine (order : Nat) (m : Model) (line : List Char) : Model :=
  if (normalize_input line).length < order ∨ (normalize_input line).length > 63 then m
  else trainValid order m (normalize_input line)

/-- The empty model that `__init__` starts with. -/
def initModel : Model := ⟨[], [], []⟩

/-- Source `_train` before the frequency-pruning pass: fold the loop body over
the corpus lines. -/
def trainCorpus (order : Nat) (lines : List (List Char)) : Model :=
  lines.foldl (trainLine order) initModel

/-- Source `_filter_by_frequency`: drop transitions and start states below
`min_frequency` (no-op when `min_frequency <= 1`); states whose counters
become empty disappear from the dictionary. -/
def filterByFrequency (minFreq : Nat) (m : Model) : Model :=
  if minFreq ≤ 1 then m
  else
    { transitions := m.transitions.filterMap (fun p =>
        let c' := p.2.filter (fun q => minFreq ≤ q.2)
        if c' = [] then none else some (p.1, c')),
      start_states := m.start_states.filter (fun q => minFreq ≤ q.2),
      training_set := m.training_set }

/-- Full `_train`: corpus pass followed by frequency pruning. -/
def trainModel (order minFreq : Nat) (lines : List (List Char)) : Model :=
  filterByFrequency minFreq (trainCorpus order lines)

/-- Walk a counter by cumulative weights and pick the element covering `r`. -/
def pickWeighted {α : Type} : List (α × Nat) → Nat → Option α
  | [], _ => none
  | (a, w) :: rest, r => if r < w then some a else pickWeighted rest (r - w)

/-- Source `_weighted_choice`: `None` on an empty counter, otherwise a
frequency-proportional selection driven by the random value `r`. -/
def weightedChoice {α : Type} (ctr : List (α × Nat)) (r : Nat) : Option α :=
  match ctr with
  | [] => none
  | _ =>
    let total := (ctr.map Prod.snd).sum
    if total = 0 then none else pickWeighted ctr (r % total)

/-- The `while attempts < max_attempts` loop of `_generate_one`, with the
attempt budget as fuel and the random stream indexed by attempt. -/
def genLoop (tr : List (List Char × List (Char × Nat))) (minLen maxLen : Nat)
    (rng : Nat → Nat) : Nat → Nat → List Char → List Char → List Char
  | 0, _, _, result => result
  | fuel + 1, idx, state, result =>
    match tlookup tr state with
    | none => result
    | some ctr =>
      match weightedChoice ctr (rng idx) with
      | none => result
      | some next =>
        if next = '$' then
          if minLen ≤ result.length then result
          else genLoop tr minLen maxLen rng fuel (idx + 1) state result
        else
          if maxLen ≤ (result ++ [next]).length then result ++ [next]
          else genLoop tr minLen maxLen rng fuel (idx + 1) (state.tail ++ [next])
            (result ++ [next])

/-- The final validation of `_generate_one`: length-range and hyphen gates. -/
def finalize (minLen maxLen : Nat) (r : List Char) : Option (List Char) :=
  if r.length < minLen ∨ r.length > maxLen then none
  else if Brute.startsHyphen r ∨ Brute.endsHyphen r ∨ Brute.hasDoubleHyphen r then none
  else some r

/-- Source `MarkovGenerator._generate_one`, with the random source as an explicit
stream of naturals. -/
def generate_one (m : Model) (minLen maxLen : Nat) (rng : Nat → Nat) : Option (List Char) :=
  match weightedChoice m.start_states (rng 0) with
  | none => none
  | some st =>
    finalize minLen maxLen (genLoop m.transitions minLen maxLen rng (maxLen * 3) 1 st
      (st.filter (fun c => !(c == '^'))))

/-- The `while len(generated) < count and attempts < max_attempts` loop of
`generate`, also returning the number of attempts consumed. -/
def genManyGo (m : Model) (minLen maxLen count : Nat) (rng : Nat → Nat → Nat) :
    Nat → Nat → List (List Char) → List (List Char) × Nat
  | 0, used, acc => (acc, used)
  | fuel + 1, used, acc =>
    if count ≤ acc.length then (acc, used)
    else
      match generate_one m minLen maxLen (rng used) with
      | some d =>
        if d ≠ [] ∧ d ∉ m.training_set ∧ d ∉ acc then
          genManyGo m minLen maxLen count rng fuel (used + 1) (acc ++ [d])
        else genManyGo m minLen maxLen count rng fuel (used + 1) acc
      | none => genManyGo m minLen maxLen count rng fuel (used + 1) acc

/-- Source `MarkovGenerator.generate`: collected yields plus attempts used, with
the attempt budget `count * 100`. -/
def generate (m : Model) (minLen maxLen count : Nat) (rng : Nat → Nat → Nat) :
    List (List Char) × Nat :=
  genManyGo m minLen maxLen count rng (count * 100) 0 []

/-- C3: every non-`None` string returned by `_generate_one` has length in
`[min_len, max_len]`, does not start or end with a hyphen, and contains no
doubled hyphen — these are exactly the final-validation gates of the
function. -/
theorem generate_one_valid (m : Model) (minLen maxLen : Nat) (rng : Nat → Nat)
    (s : List Char) (h : generate_one m minLen maxLen rng = some s) :
    minLen ≤ s.length ∧ s.length ≤ maxLen ∧
    Brute.startsHyphen s = false ∧ Brute.endsHyphen s = false ∧
    Brute.hasDoubleHyphen s = false := by
  unfold generate_one at h
  split at h
  · exact absurd h (by simp)
  · unfold finalize at h
    split at h
    · exact absurd h (by simp)
    · split at h
      · exact absurd h (by simp)
      · next hlen hval =>
        rw [Option.some_inj] at h
        subst h
        refine ⟨by omega, by omega, ?_, ?_, ?_⟩
        · cases hb : Brute.startsHyphen _
          · rfl
          · exact absurd (Or.inl hb) hval
        · cases hb : Brute.endsHyphen _
          · rfl
          · exact absurd (Or.inr (Or.inl hb)) hval
        · cases hb : Brute.hasDoubleHyphen _
          · rfl
          · exact absurd (Or.inr (Or.inr hb)) hval

/-- A tiny concrete trained-model stand-in used to witness the sampler
theorems on a concrete run. -/
def witModel : Model :=
  ⟨[(['^', '^'], [('a', 1)])], [(['^', '^'], 1)], []⟩

/-- Witness: `generate_one` on `witModel` concretely returns `"a"`, which
satisfies all the C3 constraints. -/
theorem generate_one_valid_witness :
    generate_one witModel 1 2 (fun _ => 0) = some ['a'] ∧
      (1 ≤ (['a'] : List Char).length ∧ (['a'] : List Char).length ≤ 2 ∧
        Brute.startsHyphen ['a'] = false ∧ Brute.endsHyphen ['a'] = false ∧
        Brute.hasDoubleHyphen ['a'] = false) :=
  ⟨rfl, generate_one_valid witModel 1 2 (fun _ => 0) ['a'] rfl⟩

theorem generate_one_none_of_no_starts {m : Model} (h : m.start_states = [])
    (minLen maxLen : Nat) (rng : Nat → Nat) : generate_one m minLen maxLen rng = none := by
  unfold generate_one
  rw [h]
  rfl

/-- Loop invariant for `generate`'s retry loop: the accumulator stays within
`count`, duplicate-free, disjoint from the training set; attempts grow by at
most the fuel; and with no start states the accumulator never grows. -/
theorem genManyGo_spec (m : Model) (minLen maxLen count : Nat) (rng : Nat → Nat → Nat) :
    ∀ (fuel used : Nat) (acc : List (List Char)),
      acc.length ≤ count → acc.Nodup → (∀ d ∈ acc, d ∉ m.training_set) →
      (genManyGo m minLen maxLen count rng fuel used acc).1.length ≤ count ∧
      (genManyGo m minLen maxLen count rng fuel used acc).1.Nodup ∧
      (∀ d ∈ (genManyGo m minLen maxLen count rng fuel used acc).1, d ∉ m.training_set) ∧
      (genManyGo m minLen maxLen count rng fuel used acc).2 ≤ used + fuel ∧
      (m.start_states = [] → (genManyGo m minLen maxLen count rng fuel used acc).1 = acc) := by
  intro fuel
  induction fuel with
  | zero =>
    intro used acc h1 h2 h3
    exact ⟨h1, h2, h3, by simp [genManyGo], fun _ => rfl⟩
  | succ fuel ih =>
    intro used acc h1 h2 h3
    unfold genManyGo
    split
    · exact ⟨h1, h2, h3, by omega, fun _ => rfl⟩
    · next hlt =>
      cases hg : generate_one m minLen maxLen (rng used) with
      | none =>
        simp only [hg]
        obtain ⟨g1, g2, g3, g4, g5⟩ := ih (used + 1) acc h1 h2 h3
        exact ⟨g1, g2, g3, by omega, g5⟩
      | some d =>
        simp only [hg]
        split
        · next hcond =>
          have h1' : (acc ++ [d]).length ≤ count := by
            simp only [List.length_append, List.length_singleton]
            omega
          have h2' : (acc ++ [d]).Nodup := by
            rw [List.nodup_append]
            refine ⟨h2, List.nodup_singleton d, ?_⟩
            intro a ha hb
            rw [List.mem_singleton] at hb
            subst hb
            exact hcond.2.2 ha
          have h3' : ∀ x ∈ acc ++ [d], x ∉ m.training_set := by
            intro x hx
            rcases List.mem_append.mp hx with hx | hx
            · exact h3 x hx
            · rw [List.mem_singleton] at hx
              subst hx
              exact hcond.2.1
          obtain ⟨g1, g2, g3, g4, g5⟩ := ih (used + 1) (acc ++ [d]) h1' h2' h3'
          refine ⟨g1, g2, g3, by omega, ?_⟩
          intro hss
          rw [generate_one_none_of_no_starts hss] at hg
          cases hg
        · obtain ⟨g1, g2, g3, g4, g5⟩ := ih (used + 1) acc h1 h2 h3
          exact ⟨g1, g2, g3, by omega, g5⟩

/-- C5: for every model and `count ≥ 1`, `generate` yields at most `count`
strings, pairwise distinct, none from the training set, with at most
`count * 100` iterations of the attempt loop (one `_generate_one` call per
iteration); a model with no start states yields the empty sequence without
error. -/
theorem generate_spec (m : Model) (minLen maxLen count : Nat) (rng : Nat → Nat → Nat)
    (hc : 1 ≤ count) :
    (generate m minLen maxLen count rng).1.length ≤ count ∧
    (generate m minLen maxLen count rng).1.Nodup ∧
    (∀ d ∈ (generate m minLen maxLen count rng).1, d ∉ m.training_set) ∧
    (generate m minLen maxLen count rng).2 ≤ count * 100 ∧
    (m.start_states = [] → (generate m minLen maxLen count rng).1 = []) := by
  have h := genManyGo_spec m minLen maxLen count rng (count * 100) 0 []
    (by simp) List.nodup_nil (by simp)
  unfold generate
  refine ⟨h.1, h.2.1, h.2.2.1, ?_, h.2.2.2.2⟩
  have := h.2.2.2.1
  omega

/-- Witness instantiating `generate_spec` on the concrete `witModel` run. -/
theorem generate_spec_witness :
    1 ≤ 1 ∧
    ((generate witModel 1 2 1 (fun _ _ => 0)).1.length ≤ 1 ∧
      (generate witModel 1 2 1 (fun _ _ => 0)).1.Nodup ∧
      (∀ d ∈ (generate witModel 1 2 1 (fun _ _ => 0)).1, d ∉ witModel.training_set) ∧
      (generate witModel 1 2 1 (fun _ _ => 0)).2 ≤ 1 * 100 ∧
      (witModel.start_states = [] → (generate witModel 1 2 1 (fun _ _ => 0)).1 = [])) :=
  ⟨by decide, generate_spec witModel 1 2 1 (fun _ _ => 0) (by decide)⟩

theorem mem_of_mem_stripHyphens {c : Char} {t : List Char} (h : c ∈ stripHyphens t) :
    c ∈ t := by
  unfold stripHyphens at h
  rw [List.mem_reverse] at h
  have h1 := (List.dropWhile_sublist _).subset h
  rw [List.mem_reverse] at h1
  exact (List.dropWhile_sublist _).subset h1

theorem mem_of_mem_stripTld {c : Char} {t : List Char} :
    ∀ {tl : List (List Char)}, c ∈ stripTld tl t → c ∈ t
  | [], h => h
  | s :: rest, h => by
    unfold stripTld at h
    split at h
    · exact List.take_subset _ _ h
    · exact mem_of_mem_stripTld h

theorem trainLine_discard {order : Nat} (m : Model) {line : List Char}
    (h : (normalize_input line).length < order ∨ (normalize_input line).length > 63) :
    trainLine order m line = m := by
  unfold trainLine
  rw [if_pos h]

/-- C4: the code violates the claimed `[a-z0-9-]` charset. `_normalize_input`
filters with Unicode-aware `isalnum()` after `lower()`, so the ordinary
Lithuanian corpus line `"Ąžuolas.lt"` normalizes to `"ąžuolas"`, which keeps
characters outside `[a-z0-9-]` — contradicting the code's own comment
"Keep only valid DNS characters: a-z, 0-9, hyphen". (The length-based
discard half of the claim does hold; see `trainLine_discard`.) -/
theorem normalize_input_unicode_violation :
    normalize_input "Ąžuolas.lt".toList = "ąžuolas".toList ∧
    'ą' ∈ normalize_input "Ąžuolas.lt".toList ∧
    ¬ ((('a' : Char) ≤ 'ą' ∧ ('ą' : Char) ≤ 'z') ∨
      (('0' : Char) ≤ 'ą' ∧ ('ą' : Char) ≤ '9') ∨ ('ą' : Char) = '-') := by
  refine ⟨by decide, by decide, by decide⟩

/-- The keys (`dict` keys / `Counter` keys) of an association list. -/
def keysOf {α β : Type} (l : List (α × β)) : List α := l.map Prod.fst

theorem cincr_keys {α : Type} [DecidableEq α] :
    ∀ (c : List (α × Nat)) (k x : α), x ∈ keysOf (cincr c k) → x ∈ keysOf c ∨ x = k := by
  intro c
  induction c with
  | nil =>
    intro k x hx
    simp [cincr, keysOf] at hx
    exact Or.inr hx
  | cons p rest ih =>
    intro k x hx
    obtain ⟨a, n⟩ := p
    unfold cincr at hx
    split at hx
    · rcases List.mem_cons.mp hx with h | h
      · exact Or.inl (List.mem_cons.mpr (Or.inl h))
      · exact Or.inl (List.mem_cons.mpr (Or.inr h))
    · rcases List.mem_cons.mp hx with h | h
      · exact Or.inl (List.mem_cons.mpr (Or.inl h))
      · rcases ih k x h with h1 | h1
        · exact Or.inl (List.mem_cons.mpr (Or.inr h1))
        · exact Or.inr h1

theorem tincr_keys :
    ∀ (tr : List (List Char × List (Char × Nat))) (s : List Char) (c : Char) (x : List Char),
      x ∈ keysOf (tincr tr s c) → x ∈ keysOf tr ∨ x = s := by
  intro tr
  induction tr with
  | nil =>
    intro s c x hx
    simp [tincr, keysOf] at hx
    exact Or.inr hx
  | cons p rest ih =>
    intro s c x hx
    obtain ⟨a, ctr⟩ := p
    unfold tincr at hx
    split at hx
    · rcases List.mem_cons.mp hx with h | h
      · exact Or.inl (List.mem_cons.mpr (Or.inl h))
      · exact Or.inl (List.mem_cons.mpr (Or.inr h))
    · rcases List.mem_cons.mp hx with h | h
      · exact Or.inl (List.mem_cons.mpr (Or.inl h))
      · rcases ih s c x h with h1 | h1
        · exact Or.inl (List.mem_cons.mpr (Or.inr h1))
        · exact Or.inr h1

theorem addWindows_keys (order : Nat) :
    ∀ (l : List Char) (tr : List (List Char × List (Char × Nat))),
      ∀ k ∈ keysOf (addWindows order tr l), k ∈ keysOf tr ∨ k.length = order := by
  intro l
  induction l with
  | nil =>
    intro tr k hk
    exact Or.inl hk
  | cons c rest ih =>
    intro tr k hk
    unfold addWindows at hk
    cases hd : (c :: rest).drop order with
    | nil =>
      rw [hd] at hk
      exact Or.inl hk
    | cons nx xs =>
      rw [hd] at hk
      rcases ih (tincr tr ((c :: rest).take order) nx) k hk with h | h
      · rcases tincr_keys tr ((c :: rest).take order) nx k h with h1 | h1
        · exact Or.inl h1
        · right
          subst h1
          have hlt : order < (c :: rest).length := by
            by_contra hcon
            rw [List.drop_eq_nil_of_le (by omega)] at hd
            cases hd
          rw [List.length_take]
          omega
      · exact Or.inr h

theorem padded_take_caret (order : Nat) (text : List Char) :
    (List.replicate order '^' ++ text ++ ['$']).take order = List.replicate order '^' := by
  rw [List.append_assoc]
  generalize hL : List.replicate order '^' = R
  have h : R.length = order := by
    rw [← hL]
    simp
  rw [show order = R.length from h.symm, List.take_left]

theorem trainLine_trans_keys {order : Nat} {m : Model} {line : List Char}
    (h : ∀ k ∈ keysOf m.transitions, k.length = order) :
    ∀ k ∈ keysOf (trainLine order m line).transitions, k.length = order := by
  unfold trainLine
  split
  · exact h
  · intro k hk
    rcases addWindows_keys order _ m.transitions k hk with h1 | h1
    · exact h k h1
    · exact h1

theorem trainLine_start_keys {order : Nat} {m : Model} {line : List Char}
    (h : ∀ k ∈ keysOf m.start_states, k = List.replicate order '^') :
    ∀ k ∈ keysOf (trainLine order m line).start_states, k = List.replicate order '^' := by
  unfold trainLine
  split
  · exact h
  · intro k hk
    rcases cincr_keys m.start_states _ k hk with h1 | h1
    · exact h k h1
    · rw [h1]
      exact padded_take_caret order _

theorem trainCorpus_go_trans_keys (order : Nat) :
    ∀ (lines : List (List Char)) (m : Model),
      (∀ k ∈ keysOf m.transitions, k.length = order) →
      ∀ k ∈ keysOf (lines.foldl (trainLine order) m).transitions, k.length = order := by
  intro lines
  induction lines with
  | nil => intro m h; exact h
  | cons a lines ih =>
    intro m h
    exact ih (trainLine order m a) (trainLine_trans_keys h)

theorem trainCorpus_go_start_keys (order : Nat) :
    ∀ (lines : List (List Char)) (m : Model),
      (∀ k ∈ keysOf m.start_states, k = List.replicate order '^') →
      ∀ k ∈ keysOf (lines.foldl (trainLine order) m).start_states,
        k = List.replicate order '^' := by
  intro lines
  induction lines with
  | nil => intro m h; exact h
  | cons a lines ih =>
    intro m h
    exact ih (trainLine order m a) (trainLine_start_keys h)

theorem filterByFrequency_trans_keys {minFreq : Nat} {m : Model} :
    ∀ k ∈ keysOf (filterByFrequency minFreq m).transitions, k ∈ keysOf m.transitions := by
  unfold filterByFrequency
  split
  · intro k hk
    exact hk
  · intro k hk
    simp only [keysOf, List.mem_map] at hk
    obtain ⟨q, hq, rfl⟩ := hk
    rw [List.mem_filterMap] at hq
    obtain ⟨p, hp, hfp⟩ := hq
    have hq1 : q.1 = p.1 := by
      by_cases hc : p.2.filter (fun q => minFreq ≤ q.2) = []
      · rw [if_pos hc] at hfp
        cases hfp
      · rw [if_neg hc] at hfp
        rw [Option.some_inj] at hfp
        rw [← hfp]
    rw [hq1]
    exact List.mem_map.mpr ⟨p, hp, rfl⟩

theorem filterByFrequency_start_keys {minFreq : Nat} {m : Model} :
    ∀ k ∈ keysOf (filterByFrequency minFreq m).start_states, k ∈ keysOf m.start_states := by
  unfold filterByFrequency
  split
  · intro k hk
    exact hk
  · intro k hk
    simp only [keysOf, List.mem_map] at hk
    obtain ⟨p, hp, rfl⟩ := hk
    exact List.mem_map.mpr ⟨p, List.mem_of_mem_filter hp, rfl⟩

/-- C6: after training (and still after frequency pruning) every key of the
transition table has length exactly `order`. -/
theorem transition_keys_length (lines : List (List Char)) (order minFreq : Nat) :
    (∀ k ∈ keysOf (trainCorpus order lines).transitions, k.length = order) ∧
    (∀ k ∈ keysOf (trainModel order minFreq lines).transitions, k.length = order) := by
  have h1 := trainCorpus_go_trans_keys order lines initModel (by intro k hk; cases hk)
  refine ⟨h1, ?_⟩
  intro k hk
  exact h1 k (filterByFrequency_trans_keys k hk)

/-- Witness: in the model trained on the single line `"test"` with order 2,
the key `"^t"` is present and has length 2. -/
theorem transition_keys_length_witness :
    (['^', 't'] ∈ keysOf (trainCorpus 2 ["test".toList]).transitions) ∧
      (['^', 't'] : List Char).length = 2 :=
  ⟨by decide, (transition_keys_length ["test".toList] 2 2).1 ['^', 't'] (by decide)⟩

/-- C8: every start-state key equals `'^' * order`, before and after pruning,
so the result seed `state.replace('^','')` is always the empty string. -/
theorem start_state_keys (lines : List (List Char)) (order minFreq : Nat) :
    (∀ k ∈ keysOf (trainCorpus order lines).start_states, k = List.replicate order '^') ∧
    (∀ k ∈ keysOf (trainModel order minFreq lines).start_states,
      k = List.replicate order '^') ∧
    (∀ k ∈ keysOf (trainModel order minFreq lines).start_states,
      k.filter (fun c => !(c == '^')) = []) := by
  have h1 := trainCorpus_go_start_keys order lines initModel (by intro k hk; cases hk)
  have h2 : ∀ k ∈ keysOf (trainModel order minFreq lines).start_states,
      k = List.replicate order '^' := by
    intro k hk
    exact h1 k (filterByFrequency_start_keys k hk)
  refine ⟨h1, h2, ?_⟩
  intro k hk
  rw [h2 k hk]
  induction order with
  | zero => rfl
  | succ n ih => simpa [List.replicate_succ] using ih

/-- Witness: concrete start-state key of the `"test"`-trained model. -/
theorem start_state_keys_witness :
    (['^', '^'] ∈ keysOf (trainCorpus 2 ["test".toList]).start_states) ∧
      (['^', '^'] : List Char) = List.replicate 2 '^' :=
  ⟨by decide, (start_state_keys ["test".toList] 2 2).1 ['^', '^'] (by decide)⟩

theorem cget_cincr {α : Type} [DecidableEq α] :
    ∀ (c : List (α × Nat)) (k x : α),
      cget (cincr c k) x = cget c x + (if x = k then 1 else 0) := by
  intro c
  induction c with
  | nil =>
    intro k x
    simp only [cincr, cget]
    by_cases h : x = k
    · subst h
      simp
    · rw [if_neg (fun hk => h hk.symm), if_neg h]
  | cons p rest ih =>
    intro k x
    obtain ⟨a, n⟩ := p
    unfold cincr
    by_cases hak : a = k
    · rw [if_pos hak]
      subst hak
      unfold cget
      by_cases hax : a = x
      · rw [if_pos hax, if_pos hax, if_pos hax.symm]
      · rw [if_neg hax, if_neg hax, if_neg (fun h => hax (h.symm))]
        omega
    · rw [if_neg hak]
      unfold cget
      by_cases hax : a = x
      · rw [if_pos hax, if_pos hax, if_neg (fun h => hak (by rw [hax, h]))]
        omega
      · rw [if_neg hax, if_neg hax, ih k x]

theorem tget_nil (s : List Char) (c : Char) : tget [] s c = 0 := rfl

theorem tlookup_cons (a : List Char) (ctr : List (Char × Nat))
    (rest : List (List Char × List (Char × Nat))) (k : List Char) :
    tlookup ((a, ctr) :: rest) k = if a = k then some ctr else tlookup rest k := rfl

theorem tget_cons (a : List Char) (ctr : List (Char × Nat))
    (rest : List (List Char × List (Char × Nat))) (s : List Char) (c : Char) :
    tget ((a, ctr) :: rest) s c = if a = s then cget ctr c else tget rest s c := by
  unfold tget
  rw [tlookup_cons]
  by_cases h : a = s
  · rw [if_pos h, if_pos h]
  · rw [if_neg h, if_neg h]

theorem tget_tincr :
    ∀ (tr : List (List Char × List (Char × Nat))) (s : List Char) (c : Char)
      (s' : List Char) (c' : Char),
      tget (tincr tr s c) s' c' =
        tget tr s' c' + (if s' = s ∧ c' = c then 1 else 0) := by
  intro tr
  induction tr with
  | nil =>
    intro s c s' c'
    rw [show tincr [] s c = [(s, [(c, 1)])] from rfl, tget_cons, tget_nil]
    by_cases hss : s = s'
    · rw [if_pos hss]
      unfold cget
      by_cases hcc : c = c'
      · rw [if_pos hcc, if_pos ⟨hss.symm, hcc.symm⟩]
      · rw [if_neg hcc, if_neg (fun h => hcc h.2.symm)]
        rfl
    · rw [if_neg hss, if_neg (fun h => hss h.1.symm)]
  | cons p rest ih =>
    intro s c s' c'
    obtain ⟨a, ctr⟩ := p
    unfold tincr
    by_cases has : a = s
    · rw [if_pos has, tget_cons, tget_cons]
      by_cases has' : a = s'
      · rw [if_pos has', if_pos has', cget_cincr]
        by_cases hcc : c' = c
        · rw [if_pos hcc, if_pos ⟨has'.symm.trans has, hcc⟩]
        · rw [if_neg hcc, if_neg (fun h => hcc h.2)]
      · rw [if_neg has', if_neg has', if_neg (fun h => has' (has.trans h.1.symm))]
        omega
    · rw [if_neg has, tget_cons, tget_cons]
      by_cases has' : a = s'
      · rw [if_pos has', if_pos has', if_neg (fun h => has (has'.trans h.1))]
        omega
      · rw [if_neg has', if_neg has', ih s c s' c']

theorem tget_addWindows (order : Nat) (s : List Char) (c : Char) :
    ∀ (l : List Char) (tr : List (List Char × List (Char × Nat))),
      tget (addWindows order tr l) s c =
        tget tr s c + tget (addWindows order [] l) s c := by
  intro l
  induction l with
  | nil =>
    intro tr
    rw [show addWindows order tr [] = tr from rfl,
      show addWindows order ([] : List (List Char × List (Char × Nat))) [] = [] from rfl,
      tget_nil]
    omega
  | cons ch rest ih =>
    intro tr
    unfold addWindows
    cases hd : (ch :: rest).drop order with
    | nil =>
      rw [tget_nil]
      change tget tr s c = tget tr s c + 0
      omega
    | cons nx xs =>
      rw [ih (tincr tr ((ch :: rest).take order) nx),
        ih (tincr [] ((ch :: rest).take order) nx), tget_tincr, tget_tincr, tget_nil]
      omega

theorem trainLine_tget (order : Nat) (m : Model) (line : List Char) (s : List Char)
    (c : Char) :
    tget (trainLine order m line).transitions s c =
      tget m.transitions s c + tget (trainLine order initModel line).transitions s c := by
  unfold trainLine
  split
  · rw [show (initModel).transitions = [] from rfl, tget_nil]
    omega
  · unfold trainValid
    rw [show (initModel).transitions = [] from rfl]
    exact tget_addWindows order s c _ m.transitions

theorem trainLine_sget (order : Nat) (m : Model) (line : List Char) (k : List Char) :
    cget (trainLine order m line).start_states k =
      cget m.start_states k + cget (trainLine order initModel line).start_states k := by
  unfold trainLine
  split
  · rfl
  · unfold trainValid
    rw [show (initModel).start_states = [] from rfl]
    rw [cget_cincr, cget_cincr]
    rw [show cget ([] : List (List Char × Nat)) k = 0 from rfl]
    omega

theorem trainCorpus_singleton (order : Nat) (line : List Char) :
    trainCorpus order [line] = trainLine order initModel line := rfl

theorem trainCorpus_replicate_succ (order : Nat) (line : List Char) (k : Nat) :
    trainCorpus order (List.replicate (k + 1) line) =
      trainLine order (trainCorpus order (List.replicate k line)) line := by
  unfold trainCorpus
  rw [List.replicate_succ', List.foldl_append]
  rfl

/-- C9: transition and start-state frequencies count corpus occurrences, not
unique strings — a corpus made of `k ≥ 1` copies of one line gives every
transition and start state `k` times its single-copy frequency, while the
deduplicated training set holds the normalized string exactly once. -/
theorem replicate_corpus_counts (line : List Char) (order k : Nat) (hk : 1 ≤ k)
    (hvalid : ¬((normalize_input line).length < order ∨
      (normalize_input line).length > 63)) :
    (∀ (s : List Char) (c : Char),
      tget (trainCorpus order (List.replicate k line)).transitions s c =
        k * tget (trainCorpus order [line]).transitions s c) ∧
    (∀ st : List Char,
      cget (trainCorpus order (List.replicate k line)).start_states st =
        k * cget (trainCorpus order [line]).start_states st) ∧
    (trainCorpus order (List.replicate k line)).training_set = [normalize_input line] := by
  induction k with
  | zero => omega
  | succ k ih =>
    by_cases hk0 : k = 0
    · subst hk0
      refine ⟨fun s c => ?_, fun st => ?_, ?_⟩
      · rw [show List.replicate 1 line = [line] from rfl, Nat.one_mul]
      · rw [show List.replicate 1 line = [line] from rfl, Nat.one_mul]
      · rw [show List.replicate 1 line = [line] from rfl, trainCorpus_singleton]
        unfold trainLine
        rw [if_neg hvalid]
        unfold trainValid
        rw [show (initModel).training_set = [] from rfl]
        rw [if_neg (by simp)]
        simp
    · obtain ⟨ih1, ih2, ih3⟩ := ih (by omega)
      refine ⟨fun s c => ?_, fun st => ?_, ?_⟩
      · rw [trainCorpus_replicate_succ, trainLine_tget, ih1 s c, ← trainCorpus_singleton]
        ring
      · rw [trainCorpus_replicate_succ, trainLine_sget, ih2 st, ← trainCorpus_singleton]
        ring
      · rw [trainCorpus_replicate_succ]
        unfold trainLine
        rw [if_neg hvalid]
        unfold trainValid
        rw [ih3]
        rw [if_pos (by simp)]

/-- Witness for `replicate_corpus_counts`: three copies of `"test"` at order 2
triple the `"^t" → 'e'` transition and the start-state count, with a
singleton training set. -/
theorem replicate_corpus_counts_witness :
    (1 ≤ 3 ∧ ¬((normalize_input "test".toList).length < 2 ∨
      (normalize_input "test".toList).length > 63)) ∧
    ((∀ (s : List Char) (c : Char),
      tget (trainCorpus 2 (List.replicate 3 "test".toList)).transitions s c =
        3 * tget (trainCorpus 2 ["test".toList]).transitions s c) ∧
    (∀ st : List Char,
      cget (trainCorpus 2 (List.replicate 3 "test".toList)).start_states st =
        3 * cget (trainCorpus 2 ["test".toList]).start_states st) ∧
    (trainCorpus 2 (List.replicate 3 "test".toList)).training_set =
      [normalize_input "test".toList]) :=
  ⟨⟨by decide, by decide⟩,
    replicate_corpus_counts "test".toList 2 3 (by decide) (by decide)⟩

end Markov

namespace Cleanup

/-- Python's regex `\w` word-character class, in the ASCII model:
letters, digits and underscore. -/
def wordChar (c : Char) : Bool := c.isAlphanum || c == '_'

/-- A character allowed by the `^[\w\-.]+$` check. -/
def validChar (c : Char) : Bool := wordChar c || c == '-' || c == '.'

/-- Source `str.split('.')` on a character list. -/
def splitOnDot : List Char → List (List Char)
  | [] => [[]]
  | c :: rest =>
    if c = '.' then [] :: splitOnDot rest
    else
      match splitOnDot rest with
      | [] => [[c]]
      | l :: ls => (c :: l) :: ls

/-- Source `'.'.join(labels)`. -/
def joinDots : List (List Char) → List Char
  | [] => []
  | [l] => l
  | l :: l2 :: ls => l ++ '.' :: joinDots (l2 :: ls)

/-- Source `cleaned.rstrip('.')`. -/
def rstripDots (l : List Char) : List Char := (l.reverse.dropWhile (· == '.')).reverse

/-- The `re.match(r"^[a-zA-Z]+://", ...)` test followed by
`urlparse(...).netloc or cleaned`: when a scheme prefix is present, keep the
authority part (up to `/`, `?` or `#`), falling back to the input when the
authority is empty. -/
def schemeHost (l : List Char) : List Char :=
  if l.takeWhile Char.isAlpha ≠ [] ∧
      (l.drop (l.takeWhile Char.isAlpha).length).take 3 = [':', '/', '/'] then
    if ((l.drop (l.takeWhile Char.isAlpha).length).drop 3).takeWhile
        (fun c => !(c == '/') && !(c == '?') && !(c == '#')) = [] then l
    else ((l.drop (l.takeWhile Char.isAlpha).length).drop 3).takeWhile
      (fun c => !(c == '/') && !(c == '?') && !(c == '#'))
  else l

/-- Source `if cleaned.lower().startswith("www."): cleaned = cleaned[4:]`. -/
def stripWww (l : List Char) : List Char :=
  if (l.map Char.toLower).take 4 = ['w', 'w', 'w', '.'] then l.drop 4 else l

/-- Source `re.match(r"^\d+(\.\d+){3}$", ...)`: four non-empty all-digit labels. -/
def isIp (l : List Char) : Bool :=
  (splitOnDot l).length == 4 &&
    (splitOnDot l).all (fun p => !p.isEmpty && p.all Char.isDigit)

/-- Source `re.match(r"^[\w\-.]+$", ...)`. -/
def validChars (l : List Char) : Bool := !l.isEmpty && l.all validChar

/-- Modelled from the spec: `tldextract`'s public-suffix table is an external
lookup capability ("longest public suffix match over a known suffix list",
spec §4.1/§9); this is a representative fixed snapshot of that list
containing the suffixes the policy cares about. -/
def psl : List (List Char) :=
  ["lt", "gov.lt", "com", "net", "org", "io", "co"].map String.toList

/-- Index of the first label from which the trailing labels form a known
public suffix (`labels.length` when none do) — the longest-suffix match. -/
def suffixStart : List (List Char) → Nat
  | [] => 0
  | l :: ls => if joinDots (l :: ls) ∈ psl then 0 else suffixStart ls + 1

/-- Modelled from the spec: `tldextract.extract`, returning
`(subdomain, domain, suffix)` as the longest-suffix split of the dot-labels
(spec §4.1 step 8, §9). -/
def extract (s : List Char) : List Char × List Char × List Char :=
  if suffixStart (splitOnDot s) = 0 then
    ([], [], joinDots ((splitOnDot s).drop (suffixStart (splitOnDot s))))
  else
    (joinDots ((splitOnDot s).take (suffixStart (splitOnDot s) - 1)),
      (splitOnDot s).getD (suffixStart (splitOnDot s) - 1) [],
      joinDots ((splitOnDot s).drop (suffixStart (splitOnDot s))))

/-- Source `GOV_DOMAINS`. -/
def GOV_DOMAINS : List (List Char) := ["lrv", "edu", "mil"].map String.toList

/-- Source `GOV_SUFFIXES`. -/
def GOV_SUFFIXES : List (List Char) := ["lrv.lt", "edu.lt", "mil.lt", "gov.lt"].map String.toList

/-- Source `gov_domains or GOV_DOMAINS`: an empty (or absent) injected set falls
back to the module default. -/
def useDefault (l d : List (List Char)) : List (List Char) := if l = [] then d else l

/-- The per-label loop of `is_valid_domain_length`. -/
def lengthCheck : List (List Char) → Option String
  | [] => none
  | l :: ls =>
    if l.length < 3 then some "domain label too short (min 3 chars)"
    else if l.length > 63 then some "label exceeds 63 characters"
    else lengthCheck ls

/-- Source `is_valid_domain_length` (the `Option` reason; `none` means valid). -/
def is_valid_domain_length (domain : List Char) : Option String :=
  lengthCheck (if (splitOnDot domain).length > 1 then (splitOnDot domain).dropLast
    else splitOnDot domain)

/-- The per-label loop of `is_valid_hyphen_rules`. -/
def hyphenCheck : List (List Char) → Option String
  | [] => none
  | l :: ls =>
    if l.head? = some '-' then some "hyphen at start of label"
    else if l.getLast? = some '-' then some "hyphen at end of label"
    else if Brute.hasDoubleHyphen l = true ∧ ¬(l.take 4 = ['x', 'n', '-', '-']) then
      some "consecutive hyphens"
    else hyphenCheck ls

/-- Source `is_valid_hyphen_rules` (the `Option` reason; `none` means valid). -/
def is_valid_hyphen_rules (domain : List Char) : Option String :=
  hyphenCheck (splitOnDot domain)

/-- The tail of `process_domain`: the two label-validity checks and the
accepting return. -/
def finalChecks (domain : List Char) : Option (List Char) × Option String :=
  match is_valid_domain_length domain with
  | some r => (none, some r)
  | none =>
    match is_valid_hyphen_rules domain with
    | some r => (none, some r)
    | none => (some domain, none)

/-- The `if target_tld:` block's rejection condition: a truthy target, a
different extracted suffix not in the government-suffix set, and other TLDs
not allowed. -/
def tldReject (suf : List Char) (target_tld : Option (List Char)) (allow_other_tlds : Bool)
    (gs : List (List Char)) : Bool :=
  match target_tld with
  | none => false
  | some t => decide (t ≠ []) && decide (suf ≠ t) && decide (suf ∉ gs) && !allow_other_tlds

/-- The suffix/subdomain policy block of `process_domain`, after extraction,
with the government sets already default-resolved. -/
def policyAndChecks (sub dom suf : List Char) (target_tld : Option (List Char))
    (allow_other_tlds allow_subdomains : Bool)
    (gd gs : List (List Char)) : Option (List Char) × Option String :=
  if tldReject suf target_tld allow_other_tlds gs = true then
    (none, some "disallowed tld")
  else if suf = ['l', 't'] then
    if suf ∈ gs ∨ dom ∈ gd then
      if sub ≠ [] then finalChecks (sub ++ '.' :: (dom ++ '.' :: suf))
      else finalChecks (dom ++ '.' :: suf)
    else if sub ≠ [] ∧ ¬allow_subdomains then (none, some "non-govt subdomain")
    else finalChecks (dom ++ '.' :: suf)
  else
    if sub ≠ [] ∧ ¬allow_subdomains then (none, some "subdomain not allowed")
    else finalChecks (dom ++ '.' :: suf)

/-- Source `process_domain` from the lowercasing step on: extraction, the
empty-domain/suffix rejection, then policy and label checks. -/
def processLower (lowered : List Char) (target_tld : Option (List Char))
    (allow_other_tlds allow_subdomains : Bool)
    (gov_domains gov_suffixes : List (List Char)) : Option (List Char) × Option String :=
  if (extract lowered).2.1 = [] ∨ (extract lowered).2.2 = [] then
    (none, some "invalid domain/suffix")
  else
    policyAndChecks (extract lowered).1 (extract lowered).2.1 (extract lowered).2.2
      target_tld allow_other_tlds allow_subdomains
      (useDefault gov_domains GOV_DOMAINS) (useDefault gov_suffixes GOV_SUFFIXES)

/-- Source `process_domain` after the emptiness test: dot-stripping, scheme
extraction, `www.` stripping, the IP and character checks, lowering, and the
rest of the pipeline. -/
def processClean (cleaned : List Char) (target_tld : Option (List Char))
    (allow_other_tlds allow_subdomains : Bool)
    (gov_domains gov_suffixes : List (List Char)) : Option (List Char) × Option String :=
  if isIp (stripWww (schemeHost (rstripDots cleaned))) = true then (none, some "ip address")
  else if ¬(validChars (stripWww (schemeHost (rstripDots cleaned))) = true) then
    (none, some "invalid characters")
  else
    processLower ((stripWww (schemeHost (rstripDots cleaned))).map Char.toLower)
      target_tld allow_other_tlds allow_subdomains gov_domains gov_suffixes

/-- Source `cleanup.process_domain`: normalize and validate one raw candidate,
returning `(domain, none)` on acceptance or `(none, reason)` on rejection. -/
def process_domain (raw : List Char) (target_tld : Option (List Char))
    (allow_other_tlds allow_subdomains : Bool)
    (gov_domains gov_suffixes : List (List Char)) : Option (List Char) × Option String :=
  if Markov.trim raw = [] then (none, some "empty line")
  else
    processClean (Markov.trim raw) target_tld allow_other_tlds allow_subdomains
      gov_domains gov_suffixes

theorem finalChecks_exclusive (d : List Char) :
    (finalChecks d = (some d, none)) ∨ (∃ r, finalChecks d = (none, some r)) := by
  unfold finalChecks
  split
  · exact Or.inr ⟨_, rfl⟩
  · split
    · exact Or.inr ⟨_, rfl⟩
    · exact Or.inl rfl

theorem policyAndChecks_exclusive (sub dom suf : List Char) (t : Option (List Char))
    (ao as : Bool) (gd gs : List (List Char)) :
    (∃ d, policyAndChecks sub dom suf t ao as gd gs = (some d, none)) ∨
    (∃ r, policyAndChecks sub dom suf t ao as gd gs = (none, some r)) := by
  have hfc : ∀ x : List Char, (∃ d, finalChecks x = (some d, none)) ∨
      (∃ r, finalChecks x = (none, some r)) := by
    intro x
    rcases finalChecks_exclusive x with h | ⟨r, h⟩
    · exact Or.inl ⟨x, h⟩
    · exact Or.inr ⟨r, h⟩
  unfold policyAndChecks
  split
  · exact Or.inr ⟨_, rfl⟩
  · split
    · split
      · split
        · exact hfc _
        · exact hfc _
      · split
        · exact Or.inr ⟨_, rfl⟩
        · exact hfc _
    · split
      · exact Or.inr ⟨_, rfl⟩
      · exact hfc _

/-- C7: `process_domain` always returns exactly one of the pair non-null —
an accepted canonical domain with no reason, or no domain with a reason. -/
theorem process_domain_exclusive (raw : List Char) (t : Option (List Char))
    (ao as : Bool) (gd gs : List (List Char)) :
    (∃ d, process_domain raw t ao as gd gs = (some d, none)) ∨
    (∃ r, process_domain raw t ao as gd gs = (none, some r)) := by
  unfold process_domain
  split
  · exact Or.inr ⟨_, rfl⟩
  · unfold processClean
    split
    · exact Or.inr ⟨_, rfl⟩
    · split
      · exact Or.inr ⟨_, rfl⟩
      · unfold processLower
        split
        · exact Or.inr ⟨_, rfl⟩
        · exact policyAndChecks_exclusive _ _ _ _ _ _ _ _

/-- Witness: C7 at a concrete accepted input and a concrete rejected one. -/
theorem process_domain_exclusive_witness :
    ((∃ d, process_domain "example.lt".toList (some "lt".toList) false false [] [] =
        (some d, none)) ∨
      (∃ r, process_domain "example.lt".toList (some "lt".toList) false false [] [] =
        (none, some r))) ∧
    ((∃ d, process_domain "192.168.1.1".toList (some "lt".toList) false false [] [] =
        (some d, none)) ∨
      (∃ r, process_domain "192.168.1.1".toList (some "lt".toList) false false [] [] =
        (none, some r))) :=
  ⟨process_domain_exclusive "example.lt".toList (some "lt".toList) false false [] [],
    process_domain_exclusive "192.168.1.1".toList (some "lt".toList) false false [] []⟩

/-- C10: passing explicitly empty government sets falls back to the module
defaults — the result equals a call with `GOV_DOMAINS`/`GOV_SUFFIXES`. -/
theorem empty_gov_sets_default (raw : List Char) (t : Option (List Char)) (ao as : Bool) :
    process_domain raw t ao as [] [] =
      process_domain raw t ao as GOV_DOMAINS GOV_SUFFIXES := by
  unfold process_domain processClean processLower
  have h3 : useDefault GOV_DOMAINS GOV_DOMAINS = GOV_DOMAINS := by
    unfold useDefault
    rw [if_neg (by decide)]
  have h4 : useDefault GOV_SUFFIXES GOV_SUFFIXES = GOV_SUFFIXES := by
    unfold useDefault
    rw [if_neg (by decide)]
  rw [show useDefault [] GOV_DOMAINS = GOV_DOMAINS from rfl,
    show useDefault [] GOV_SUFFIXES = GOV_SUFFIXES from rfl, h3, h4]

theorem splitOnDot_ne_nil (s : List Char) : splitOnDot s ≠ [] := by
  cases s with
  | nil => simp [splitOnDot]
  | cons c rest =>
    unfold splitOnDot
    split
    · simp
    · split
      · simp
      · simp

theorem splitOnDot_no_dot (s : List Char) : ∀ l ∈ splitOnDot s, ('.' : Char) ∉ l := by
  induction s with
  | nil =>
    intro l hl
    simp [splitOnDot] at hl
    simp [hl]
  | cons c rest ih =>
    intro l hl
    unfold splitOnDot at hl
    split at hl
    · rcases List.mem_cons.mp hl with h | h
      · simp [h]
      · exact ih l h
    · next hc =>
      cases hsp : splitOnDot rest with
      | nil => exact absurd hsp (splitOnDot_ne_nil rest)
      | cons l0 ls =>
        rw [hsp] at hl
        rcases List.mem_cons.mp hl with h | h
        · subst h
          intro hmem
          rcases List.mem_cons.mp hmem with h1 | h1
          · exact hc h1.symm
          · exact ih l0 (hsp ▸ List.mem_cons_self l0 ls) h1
        · exact ih l (hsp ▸ List.mem_cons_of_mem l0 h)

theorem splitOnDot_chars (s : List Char) : ∀ l ∈ splitOnDot s, ∀ c ∈ l, c ∈ s := by
  induction s with
  | nil =>
    intro l hl
    simp [splitOnDot] at hl
    simp [hl]
  | cons a rest ih =>
    intro l hl c hc
    unfold splitOnDot at hl
    split at hl
    · rcases List.mem_cons.mp hl with h | h
      · subst h
        cases hc
      · exact List.mem_cons_of_mem a (ih l h c hc)
    · cases hsp : splitOnDot rest with
      | nil => exact absurd hsp (splitOnDot_ne_nil rest)
      | cons l0 ls =>
        rw [hsp] at hl
        rcases List.mem_cons.mp hl with h | h
        · subst h
          rcases List.mem_cons.mp hc with h1 | h1
          · exact h1 ▸ List.mem_cons_self a rest
          · exact List.mem_cons_of_mem a
              (ih l0 (hsp ▸ List.mem_cons_self l0 ls) c h1)
        · exact List.mem_cons_of_mem a (ih l (hsp ▸ List.mem_cons_of_mem l0 h) c hc)

theorem joinDots_cons (l : List Char) {ls : List (List Char)} (h : ls ≠ []) :
    joinDots (l :: ls) = l ++ '.' :: joinDots ls := by
  cases ls with
  | nil => exact absurd rfl h
  | cons l2 ls' => rfl

theorem joinDots_chars : ∀ (L : List (List Char)) (c : Char), c ∈ joinDots L →
    (∃ l ∈ L, c ∈ l) ∨ c = '.'
  | [], c, h => by cases h
  | [l], c, h => Or.inl ⟨l, List.mem_cons_self l [], h⟩
  | l :: l2 :: ls, c, h => by
    rw [joinDots_cons l (by simp)] at h
    rcases List.mem_append.mp h with h1 | h1
    · exact Or.inl ⟨l, List.mem_cons_self l _, h1⟩
    · rcases List.mem_cons.mp h1 with h2 | h2
      · exact Or.inr h2
      · rcases joinDots_chars (l2 :: ls) c h2 with ⟨l', hl', hc'⟩ | h3
        · exact Or.inl ⟨l', List.mem_cons_of_mem l hl', hc'⟩
        · exact Or.inr h3

theorem splitOnDot_cons (c : Char) (rest : List Char) :
    splitOnDot (c :: rest) = if c = '.' then [] :: splitOnDot rest
      else match splitOnDot rest with
        | [] => [[c]]
        | l :: ls => (c :: l) :: ls := rfl

theorem splitOnDot_no_dot_list {l : List Char} (h : ('.' : Char) ∉ l) :
    splitOnDot l = [l] := by
  induction l with
  | nil => rfl
  | cons c rest ih =>
    have hc : ¬ c = '.' := fun hceq => h (by rw [← hceq]; exact List.mem_cons_self c rest)
    rw [splitOnDot_cons, if_neg hc, ih (fun hm => h (List.mem_cons_of_mem c hm))]

theorem splitOnDot_append_dot {l : List Char} (rest : List Char)
    (h : ('.' : Char) ∉ l) :
    splitOnDot (l ++ '.' :: rest) = l :: splitOnDot rest := by
  induction l with
  | nil =>
    show splitOnDot ('.' :: rest) = [] :: splitOnDot rest
    rw [splitOnDot_cons, if_pos rfl]
  | cons c l' ih =>
    have hc : ¬ c = '.' := fun hceq => h (by rw [← hceq]; exact List.mem_cons_self c l')
    show splitOnDot (c :: (l' ++ '.' :: rest)) = (c :: l') :: splitOnDot rest
    rw [splitOnDot_cons, if_neg hc, ih (fun hm => h (List.mem_cons_of_mem c hm))]

theorem splitOnDot_joinDots : ∀ {L : List (List Char)}, L ≠ [] →
    (∀ l ∈ L, ('.' : Char) ∉ l) → splitOnDot (joinDots L) = L
  | [], h, _ => absurd rfl h
  | [l], _, hd => by
    show splitOnDot l = [l]
    exact splitOnDot_no_dot_list (hd l (List.mem_cons_self l []))
  | l :: l2 :: ls, _, hd => by
    rw [joinDots_cons l (by simp)]
    rw [splitOnDot_append_dot _ (hd l (List.mem_cons_self l _))]
    rw [splitOnDot_joinDots (by simp) (fun x hx => hd x (List.mem_cons_of_mem l hx))]

theorem joinDots_append : ∀ {A : List (List Char)} (B : List (List Char)),
    A ≠ [] → B ≠ [] → joinDots (A ++ B) = joinDots A ++ '.' :: joinDots B
  | [], _, hA, _ => absurd rfl hA
  | [a], B, _, hB => by
    show joinDots (a :: B) = a ++ '.' :: joinDots B
    exact joinDots_cons a hB
  | a :: a2 :: A', B, _, hB => by
    show joinDots (a :: ((a2 :: A') ++ B)) = joinDots (a :: a2 :: A') ++ '.' :: joinDots B
    rw [joinDots_cons a (by simp), joinDots_cons a (by simp),
      joinDots_append B (by simp) hB, List.append_assoc]
    rfl

theorem suffixStart_le : ∀ (L : List (List Char)), suffixStart L ≤ L.length
  | [] => le_refl 0
  | l :: ls => by
    unfold suffixStart
    split
    · simp
    · have := suffixStart_le ls
      simp
      omega

theorem suffixStart_mem : ∀ (L : List (List Char)), suffixStart L < L.length →
    joinDots (L.drop (suffixStart L)) ∈ psl
  | [], h => by simp at h
  | l :: ls, h => by
    unfold suffixStart at h ⊢
    split at h
    · next hmem =>
      rw [if_pos hmem]
      exact hmem
    · next hmem =>
      rw [if_neg hmem]
      show joinDots (ls.drop (suffixStart ls)) ∈ psl
      exact suffixStart_mem ls (by simp at h; omega)

theorem suffixStart_min : ∀ (L : List (List Char)) (m : Nat), m < suffixStart L →
    joinDots (L.drop m) ∉ psl
  | [], m, h => by simp [suffixStart] at h
  | l :: ls, m, h => by
    unfold suffixStart at h
    split at h
    · omega
    · next hmem =>
      cases m with
      | zero => exact hmem
      | succ m' =>
        show joinDots (ls.drop m') ∉ psl
        exact suffixStart_min ls m' (by omega)

theorem suffixStart_of_mem {L : List (List Char)} (hne : L ≠ [])
    (h : joinDots L ∈ psl) : suffixStart L = 0 := by
  cases L with
  | nil => exact absurd rfl hne
  | cons l ls =>
    unfold suffixStart
    rw [if_pos h]

theorem toLower_eq_self_of_not_upper {c : Char} (h : c.isUpper = false) :
    Char.toLower c = c := by
  rw [Char.toLower]
  show (if c.toNat ≥ 65 ∧ c.toNat ≤ 90 then Char.ofNat (c.toNat + 32) else c) = c
  rw [if_neg]
  intro hc
  simp only [Char.isUpper] at h
  have h1 : (c.val ≥ 65) := hc.1
  have h2 : (c.val ≤ 90) := hc.2
  simp [h1, h2] at h

theorem isLower_toLower_of_upper {c : Char} (h : c.isUpper = true) :
    (Char.toLower c).isLower = true := by
  simp only [Char.isUpper, Bool.and_eq_true, decide_eq_true_eq] at h
  have h1 : 65 ≤ c.toNat := h.1
  have h2 : c.toNat ≤ 90 := h.2
  rw [Char.toLower]
  show (if c.toNat ≥ 65 ∧ c.toNat ≤ 90 then Char.ofNat (c.toNat + 32) else c).isLower = true
  rw [if_pos ⟨h1, h2⟩]
  have hv : (c.toNat + 32).isValidChar := by
    left
    omega
  have ht : (Char.ofNat (c.toNat + 32)).toNat = c.toNat + 32 := char_toNat_ofNat hv
  simp only [Char.isLower, Bool.and_eq_true, decide_eq_true_eq]
  constructor
  · show 97 ≤ (Char.ofNat (c.toNat + 32)).toNat
    omega
  · show (Char.ofNat (c.toNat + 32)).toNat ≤ 122
    omega

theorem validChar_toLower {c : Char} (h : validChar c = true) :
    validChar (Char.toLower c) = true := by
  cases hu : c.isUpper with
  | false => rw [toLower_eq_self_of_not_upper hu]; exact h
  | true =>
    have hl := isLower_toLower_of_upper hu
    simp [validChar, wordChar, Char.isAlphanum, Char.isAlpha, hl]

theorem not_ws_of_validChar {c : Char} (h : validChar c = true) :
    c.isWhitespace = false := by
  cases hw : c.isWhitespace with
  | false => rfl
  | true =>
    exfalso
    simp only [Char.isWhitespace, Bool.or_eq_true, decide_eq_true_eq] at hw
    rcases hw with ((h1 | h1) | h1) | h1 <;> subst h1 <;> simp [validChar, wordChar] at h

theorem dropWhile_eq_self_of {p : Char → Bool} {l : List Char}
    (h : ∀ c ∈ l, p c = false) : l.dropWhile p = l := by
  cases l with
  | nil => rfl
  | cons c rest =>
    rw [List.dropWhile_cons_of_neg]
    simp [h c (List.mem_cons_self c rest)]

theorem trim_eq_self {l : List Char} (h : ∀ c ∈ l, c.isWhitespace = false) :
    Markov.trim l = l := by
  unfold Markov.trim
  rw [dropWhile_eq_self_of h, dropWhile_eq_self_of (by
    intro c hc
    exact h c (List.mem_reverse.mp hc)), List.reverse_reverse]

theorem rstripDots_eq_self {l : List Char} (h : l.getLast? ≠ some '.') :
    rstripDots l = l := by
  unfold rstripDots
  cases hr : l.reverse with
  | nil => simp [hr, List.reverse_eq_nil_iff.mp hr]
  | cons c rest =>
    have hc : (c == '.') = false := by
      have : l.getLast? = some c := by
        rw [← List.head?_reverse, hr]
        rfl
      cases hcc : (c == '.') with
      | false => rfl
      | true =>
        exact absurd (by rw [this, beq_iff_eq.mp hcc]) h
    rw [List.dropWhile_cons_of_neg (by simp [hc]), ← hr, List.reverse_reverse]

theorem schemeHost_eq_self {l : List Char} (h : ∀ c ∈ l, validChar c = true) :
    schemeHost l = l := by
  unfold schemeHost
  rw [if_neg]
  intro hcond
  obtain ⟨hne, htake⟩ := hcond
  cases hd : l.drop (l.takeWhile Char.isAlpha).length with
  | nil =>
    rw [hd] at htake
    cases htake
  | cons c rest =>
    rw [hd] at htake
    have hc : c = ':' := by
      have := congrArg (fun x => x.head?) htake
      simpa using this
    have hcl : c ∈ l := List.drop_subset _ l (hd ▸ List.mem_cons_self c rest)
    have := h c hcl
    rw [hc] at this
    simp [validChar, wordChar] at this

theorem map_toLower_eq_self {l : List Char} (h : ∀ c ∈ l, Char.toLower c = c) :
    l.map Char.toLower = l := by
  rw [List.map_congr_left h]
  exact List.map_id' l

theorem stripWww_eq_self {l : List Char} (h : ∀ c ∈ l, Char.toLower c = c)
    (hw : l.take 4 ≠ ['w', 'w', 'w', '.']) : stripWww l = l := by
  unfold stripWww
  rw [map_toLower_eq_self h, if_neg hw]

theorem validChars_of (l : List Char) (hne : l ≠ []) (h : ∀ c ∈ l, validChar c = true) :
    validChars l = true := by
  unfold validChars
  rw [Bool.and_eq_true]
  constructor
  · simp [hne]
  · exact List.all_eq_true.mpr h

theorem isIp_false_of_last {x : List Char} {lab : List Char}
    (hl : (splitOnDot x).getLast? = some lab) (hd : lab.all Char.isDigit = false) :
    isIp x = false := by
  unfold isIp
  have hmem : lab ∈ splitOnDot x := List.mem_of_mem_getLast? hl
  have hall : (splitOnDot x).all (fun p => !p.isEmpty && p.all Char.isDigit) = false := by
    cases ha : (splitOnDot x).all (fun p => !p.isEmpty && p.all Char.isDigit) with
    | false => rfl
    | true =>
      have := List.all_eq_true.mp ha lab hmem
      rw [Bool.and_eq_true] at this
      rw [hd] at this
      exact absurd this.2 (by simp)
  rw [hall, Bool.and_false]

theorem psl_last_not_digits :
    ∀ p ∈ psl, ∀ lab, (splitOnDot p).getLast? = some lab →
      lab.all Char.isDigit = false ∧ lab ≠ [] := by decide

theorem psl_getLast_not_dot : ∀ p ∈ psl, p ≠ [] ∧ p.getLast? ≠ some '.' := by decide

theorem getLast?_append_right {A B : List Char} (h : B ≠ []) :
    (A ++ B).getLast? = B.getLast? := by
  rw [List.getLast?_append]
  cases hb : B.getLast? with
  | none => exact absurd (List.getLast?_eq_none_iff.mp hb) h
  | some b => rfl

theorem extract_parts (s : List Char) (hd : (extract s).2.1 ≠ []) :
    ∃ j, suffixStart (splitOnDot s) = j + 1 ∧
      (extract s).1 = joinDots ((splitOnDot s).take j) ∧
      (extract s).2.1 = (splitOnDot s).getD j [] ∧
      (extract s).2.2 = joinDots ((splitOnDot s).drop (j + 1)) := by
  unfold extract at hd ⊢
  by_cases hi : suffixStart (splitOnDot s) = 0
  · rw [if_pos hi] at hd
    exact absurd rfl hd
  · rw [if_neg hi] at hd ⊢
    refine ⟨suffixStart (splitOnDot s) - 1, by omega, rfl, rfl, ?_⟩
    have he : suffixStart (splitOnDot s) - 1 + 1 = suffixStart (splitOnDot s) := by omega
    rw [he]

theorem finalChecks_inv {x d : List Char} (h : finalChecks x = (some d, none)) :
    d = x := by
  unfold finalChecks at h
  split at h
  · exact absurd h (by simp)
  · split at h
    · exact absurd h (by simp)
    · rw [Prod.mk.injEq, Option.some_inj] at h
      exact h.1.symm

theorem policyAndChecks_no_sub (dom suf : List Char) (t : Option (List Char)) (ao as : Bool)
    (GD GS : List (List Char)) (htld : ¬ tldReject suf t ao GS = true) :
    policyAndChecks [] dom suf t ao as GD GS = finalChecks (dom ++ '.' :: suf) := by
  unfold policyAndChecks
  rw [if_neg htld]
  by_cases hlt : suf = ['l', 't']
  · rw [if_pos hlt]
    by_cases hgov : suf ∈ GS ∨ dom ∈ GD
    · rw [if_pos hgov, if_neg (by simp)]
    · rw [if_neg hgov, if_neg (by simp)]
  · rw [if_neg hlt, if_neg (by simp)]

/-- The re-run skeleton: a string that is a fixed point of every
normalization stage, is not an IP, and is accepted by `processLower`, is
accepted unchanged by the whole of `process_domain`. -/
theorem rerun_core (d' : List Char) (t : Option (List Char)) (ao as : Bool)
    (gd gs : List (List Char))
    (hchars : ∀ c ∈ d', validChar c = true ∧ Char.toLower c = c)
    (hne : d' ≠ [])
    (hlast : d'.getLast? ≠ some '.')
    (hwww : d'.take 4 ≠ ['w', 'w', 'w', '.'])
    (hip : isIp d' = false)
    (hpl : processLower d' t ao as gd gs = (some d', none)) :
    process_domain d' t ao as gd gs = (some d', none) := by
  have htr : Markov.trim d' = d' :=
    trim_eq_self (fun c hc => not_ws_of_validChar (hchars c hc).1)
  unfold process_domain
  rw [if_neg (by rw [htr]; exact hne)]
  unfold processClean
  have hsw : stripWww (schemeHost (rstripDots (Markov.trim d'))) = d' := by
    rw [htr, rstripDots_eq_self hlast, schemeHost_eq_self (fun c hc => (hchars c hc).1)]
    exact stripWww_eq_self (fun c hc => (hchars c hc).2) hwww
  rw [hsw]
  rw [if_neg (by rw [hip]; simp)]
  rw [if_neg (by
    intro hcon
    exact hcon (validChars_of d' hne (fun c hc => (hchars c hc).1)))]
  rw [map_toLower_eq_self (fun c hc => (hchars c hc).2)]
  exact hpl

theorem getLast?_append_right' {α : Type} {A B : List α} (h : B ≠ []) :
    (A ++ B).getLast? = B.getLast? := by
  rw [List.getLast?_append]
  cases hb : B.getLast? with
  | none => exact absurd (List.getLast?_eq_none_iff.mp hb) h
  | some b => rfl

theorem suffixStart_cons (l : List Char) (ls : List (List Char)) :
    suffixStart (l :: ls) =
      if joinDots (l :: ls) ∈ psl then 0 else suffixStart ls + 1 := rfl

/-- Re-run acceptance for an accepted output of the shape
`domain + "." + suffix` (no retained subdomain). -/
theorem rerun_plain (W d' : List Char) (t : Option (List Char)) (ao as : Bool)
    (gd gs : List (List Char)) (j : Nat)
    (hWchars : ∀ c ∈ W, validChar c = true ∧ Char.toLower c = c)
    (hi : suffixStart (splitOnDot W) = j + 1)
    (hjlt : j + 1 < (splitOnDot W).length)
    (hdomne : (splitOnDot W).getD j [] ≠ [])
    (htld : ¬ tldReject (joinDots ((splitOnDot W).drop (j + 1))) t ao
      (useDefault gs GOV_SUFFIXES) = true)
    (hd' : d' = (splitOnDot W).getD j [] ++ '.' :: joinDots ((splitOnDot W).drop (j + 1)))
    (hfc : finalChecks d' = (some d', none))
    (hwww : d'.take 4 ≠ ['w', 'w', 'w', '.']) :
    process_domain d' t ao as gd gs = (some d', none) := by
  have hjlen : j < (splitOnDot W).length := by omega
  have hdropne : (splitOnDot W).drop (j + 1) ≠ [] := by
    intro hnil
    have hle := List.drop_eq_nil_iff.mp hnil
    omega
  have hpsl : joinDots ((splitOnDot W).drop (j + 1)) ∈ psl := by
    have hm := suffixStart_mem (splitOnDot W) (by rw [hi]; exact hjlt)
    rw [hi] at hm
    exact hm
  have hminj : joinDots ((splitOnDot W).drop j) ∉ psl :=
    suffixStart_min (splitOnDot W) j (by rw [hi]; omega)
  have hdomget : (splitOnDot W).getD j [] = (splitOnDot W)[j] :=
    List.getD_eq_getElem _ _ hjlen
  have hdommem : (splitOnDot W).getD j [] ∈ splitOnDot W := by
    rw [hdomget]
    exact List.getElem_mem hjlen
  have hdropj : (splitOnDot W).drop j =
      (splitOnDot W).getD j [] :: (splitOnDot W).drop (j + 1) := by
    rw [hdomget]
    exact List.drop_eq_getElem_cons hjlen
  have hnd := splitOnDot_no_dot W
  have hchW := splitOnDot_chars W
  have hSLsub : ∀ l ∈ (splitOnDot W).drop (j + 1), l ∈ splitOnDot W :=
    fun l hl => List.drop_subset _ _ hl
  have hd'join : d' = joinDots ((splitOnDot W).getD j [] :: (splitOnDot W).drop (j + 1)) := by
    rw [joinDots_cons _ hdropne, hd']
  have hsplit' : splitOnDot d' =
      (splitOnDot W).getD j [] :: (splitOnDot W).drop (j + 1) := by
    rw [hd'join]
    refine splitOnDot_joinDots (by simp) ?_
    intro l hl
    rcases List.mem_cons.mp hl with h1 | h1
    · subst h1
      exact hnd _ hdommem
    · exact hnd l (hSLsub l h1)
  have hss1 : suffixStart ((splitOnDot W).getD j [] :: (splitOnDot W).drop (j + 1)) = 1 := by
    rw [suffixStart_cons, if_neg (by rw [← hdropj]; exact hminj),
      suffixStart_of_mem hdropne hpsl]
  have hex : extract d' = ([], (splitOnDot W).getD j [],
      joinDots ((splitOnDot W).drop (j + 1))) := by
    unfold extract
    rw [hsplit', hss1, if_neg (by omega)]
    rfl
  have hsufne : joinDots ((splitOnDot W).drop (j + 1)) ≠ [] := (psl_getLast_not_dot _ hpsl).1
  have hchars : ∀ c ∈ d', validChar c = true ∧ Char.toLower c = c := by
    intro c hc
    rw [hd'join] at hc
    rcases joinDots_chars _ c hc with ⟨l, hl, hcl⟩ | hdot
    · have hlW : l ∈ splitOnDot W := by
        rcases List.mem_cons.mp hl with h1 | h1
        · subst h1
          exact hdommem
        · exact hSLsub l h1
      exact hWchars c (hchW l hlW c hcl)
    · subst hdot
      exact ⟨by decide, by decide⟩
  have hne : d' ≠ [] := by
    rw [hd']
    simp
  have hlast : d'.getLast? ≠ some '.' := by
    have he : d' = ((splitOnDot W).getD j [] ++ ['.']) ++
        joinDots ((splitOnDot W).drop (j + 1)) := by
      rw [hd']
      simp
    rw [he, getLast?_append_right' hsufne]
    exact (psl_getLast_not_dot _ hpsl).2
  obtain ⟨lab, hlab⟩ : ∃ lab, ((splitOnDot W).drop (j + 1)).getLast? = some lab := by
    cases hg : ((splitOnDot W).drop (j + 1)).getLast? with
    | none => exact absurd (List.getLast?_eq_none_iff.mp hg) hdropne
    | some lab => exact ⟨lab, rfl⟩
  have hsufsplit : splitOnDot (joinDots ((splitOnDot W).drop (j + 1))) =
      (splitOnDot W).drop (j + 1) :=
    splitOnDot_joinDots hdropne (fun l hl => hnd l (hSLsub l hl))
  have hlabfact := (psl_last_not_digits _ hpsl lab (by rw [hsufsplit]; exact hlab)).1
  have hip : isIp d' = false := by
    refine isIp_false_of_last ?_ hlabfact
    rw [hsplit']
    rw [show (splitOnDot W).getD j [] :: (splitOnDot W).drop (j + 1) =
      [(splitOnDot W).getD j []] ++ (splitOnDot W).drop (j + 1) from rfl]
    rw [getLast?_append_right' hdropne]
    exact hlab
  have hpl : processLower d' t ao as gd gs = (some d', none) := by
    unfold processLower
    rw [hex]
    rw [if_neg (by
      push_neg
      exact ⟨hdomne, hsufne⟩)]
    show policyAndChecks [] ((splitOnDot W).getD j [])
      (joinDots ((splitOnDot W).drop (j + 1))) t ao as
      (useDefault gd GOV_DOMAINS) (useDefault gs GOV_SUFFIXES) = (some d', none)
    rw [policyAndChecks_no_sub _ _ _ _ _ _ _ htld, ← hd']
    exact hfc
  exact rerun_core d' t ao as gd gs hchars hne hlast hwww hip hpl

/-- Re-run acceptance for an accepted output of the shape
`subdomain + "." + domain + "." + suffix` (government subdomain retained),
when the output does not begin with `"www."`. -/
theorem rerun_sub (W d' : List Char) (t : Option (List Char)) (ao as : Bool)
    (gd gs : List (List Char)) (j : Nat)
    (hWchars : ∀ c ∈ W, validChar c = true ∧ Char.toLower c = c)
    (hi : suffixStart (splitOnDot W) = j + 1)
    (hjlt : j + 1 < (splitOnDot W).length)
    (hdomne : (splitOnDot W).getD j [] ≠ [])
    (htld : ¬ tldReject (joinDots ((splitOnDot W).drop (j + 1))) t ao
      (useDefault gs GOV_SUFFIXES) = true)
    (hlt : joinDots ((splitOnDot W).drop (j + 1)) = ['l', 't'])
    (hgov : joinDots ((splitOnDot W).drop (j + 1)) ∈ useDefault gs GOV_SUFFIXES ∨
      (splitOnDot W).getD j [] ∈ useDefault gd GOV_DOMAINS)
    (hsubne : joinDots ((splitOnDot W).take j) ≠ [])
    (hd' : d' = joinDots ((splitOnDot W).take j) ++ '.' ::
      ((splitOnDot W).getD j [] ++ '.' :: joinDots ((splitOnDot W).drop (j + 1))))
    (hfc : finalChecks d' = (some d', none))
    (hwww : d'.take 4 ≠ ['w', 'w', 'w', '.']) :
    process_domain d' t ao as gd gs = (some d', none) := by
  have hjlen : j < (splitOnDot W).length := by omega
  have hdropne : (splitOnDot W).drop (j + 1) ≠ [] := by
    intro hnil
    have hle := List.drop_eq_nil_iff.mp hnil
    omega
  have hpsl : joinDots ((splitOnDot W).drop (j + 1)) ∈ psl := by
    have hm := suffixStart_mem (splitOnDot W) (by rw [hi]; exact hjlt)
    rw [hi] at hm
    exact hm
  have hdomget : (splitOnDot W).getD j [] = (splitOnDot W)[j] :=
    List.getD_eq_getElem _ _ hjlen
  have hdommem : (splitOnDot W).getD j [] ∈ splitOnDot W := by
    rw [hdomget]
    exact List.getElem_mem hjlen
  have hdropj : (splitOnDot W).drop j =
      (splitOnDot W).getD j [] :: (splitOnDot W).drop (j + 1) := by
    rw [hdomget]
    exact List.drop_eq_getElem_cons hjlen
  have hLne : splitOnDot W ≠ [] := splitOnDot_ne_nil W
  have hnd := splitOnDot_no_dot W
  have hchW := splitOnDot_chars W
  have htakene : (splitOnDot W).take j ≠ [] := by
    intro hx
    apply hsubne
    rw [hx]
    rfl
  have hsufne : joinDots ((splitOnDot W).drop (j + 1)) ≠ [] := (psl_getLast_not_dot _ hpsl).1
  have hLdecomp : joinDots (splitOnDot W) = joinDots ((splitOnDot W).take j) ++ '.' ::
      ((splitOnDot W).getD j [] ++ '.' :: joinDots ((splitOnDot W).drop (j + 1))) := by
    conv_lhs => rw [← List.take_append_drop j (splitOnDot W)]
    rw [joinDots_append _ htakene (by rw [hdropj]; simp), hdropj,
      joinDots_cons _ hdropne]
  have hd'join : d' = joinDots (splitOnDot W) := by
    rw [hd', hLdecomp]
  have hsplit' : splitOnDot d' = splitOnDot W := by
    rw [hd'join]
    exact splitOnDot_joinDots hLne hnd
  have hex : extract d' = (joinDots ((splitOnDot W).take j), (splitOnDot W).getD j [],
      joinDots ((splitOnDot W).drop (j + 1))) := by
    unfold extract
    rw [hsplit', hi, if_neg (by omega), Nat.add_sub_cancel]
  have hchars : ∀ c ∈ d', validChar c = true ∧ Char.toLower c = c := by
    intro c hc
    rw [hd'join] at hc
    rcases joinDots_chars _ c hc with ⟨l, hl, hcl⟩ | hdot
    · exact hWchars c (hchW l hl c hcl)
    · subst hdot
      exact ⟨by decide, by decide⟩
  have hne : d' ≠ [] := by
    rw [hd']
    simp
  have hlast : d'.getLast? ≠ some '.' := by
    have he : d' = ((joinDots ((splitOnDot W).take j) ++ '.' :: (splitOnDot W).getD j [])
        ++ ['.']) ++ joinDots ((splitOnDot W).drop (j + 1)) := by
      rw [hd']
      simp
    rw [he, getLast?_append_right' hsufne]
    exact (psl_getLast_not_dot _ hpsl).2
  obtain ⟨lab, hlab⟩ : ∃ lab, ((splitOnDot W).drop (j + 1)).getLast? = some lab := by
    cases hg : ((splitOnDot W).drop (j + 1)).getLast? with
    | none => exact absurd (List.getLast?_eq_none_iff.mp hg) hdropne
    | some lab => exact ⟨lab, rfl⟩
  have hsufsplit : splitOnDot (joinDots ((splitOnDot W).drop (j + 1))) =
      (splitOnDot W).drop (j + 1) :=
    splitOnDot_joinDots hdropne (fun l hl => hnd l (List.drop_subset _ _ hl))
  have hlabfact := (psl_last_not_digits _ hpsl lab (by rw [hsufsplit]; exact hlab)).1
  have hip : isIp d' = false := by
    refine isIp_false_of_last ?_ hlabfact
    rw [hsplit']
    conv_lhs => rw [← List.take_append_drop (j + 1) (splitOnDot W)]
    rw [getLast?_append_right' hdropne]
    exact hlab
  have hpl : processLower d' t ao as gd gs = (some d', none) := by
    unfold processLower
    rw [hex]
    rw [if_neg (by
      push_neg
      exact ⟨hdomne, hsufne⟩)]
    show policyAndChecks (joinDots ((splitOnDot W).take j)) ((splitOnDot W).getD j [])
      (joinDots ((splitOnDot W).drop (j + 1))) t ao as
      (useDefault gd GOV_DOMAINS) (useDefault gs GOV_SUFFIXES) = (some d', none)
    unfold policyAndChecks
    rw [if_neg htld, if_pos hlt, if_pos hgov, if_pos hsubne, ← hd']
    exact hfc
  exact rerun_core d' t ao as gd gs hchars hne hlast hwww hip hpl

/-- C1 amended: the Validator is idempotent on its accepted outputs that do
not begin with `"www."` — for every policy and input accepted as `d'`, if
`d'` does not start with the four characters `"www."`, re-running
`process_domain` on `d'` with the same policy returns `(d', none)`. -/
theorem process_domain_idempotent_amended
    (raw : List Char) (t : Option (List Char)) (ao as : Bool) (gd gs : List (List Char))
    (d' : List Char)
    (h : process_domain raw t ao as gd gs = (some d', none))
    (hwww : d'.take 4 ≠ ['w', 'w', 'w', '.']) :
    process_domain d' t ao as gd gs = (some d', none) := by
  unfold process_domain at h
  split at h
  · exact absurd h (by simp)
  · unfold processClean at h
    split at h
    · exact absurd h (by simp)
    · split at h
      · exact absurd h (by simp)
      · next hvc0 =>
        rw [not_not] at hvc0
        have hWchars : ∀ c ∈ (stripWww (schemeHost (rstripDots (Markov.trim raw)))).map
            Char.toLower, validChar c = true ∧ Char.toLower c = c := by
          intro c hc
          rw [List.mem_map] at hc
          obtain ⟨c₀, hc₀, rfl⟩ := hc
          have hv₀ : validChar c₀ = true := by
            unfold validChars at hvc0
            rw [Bool.and_eq_true] at hvc0
            exact List.all_eq_true.mp hvc0.2 c₀ hc₀
          exact ⟨validChar_toLower hv₀, toLower_idem c₀⟩
        unfold processLower at h
        split at h
        · exact absurd h (by simp)
        · next hds0 =>
          push_neg at hds0
          obtain ⟨j, hi, hsub, hdom, hsuf⟩ := extract_parts _ hds0.1
          have hjlt : j + 1 < (splitOnDot ((stripWww (schemeHost (rstripDots
              (Markov.trim raw)))).map Char.toLower)).length := by
            by_contra hcon
            apply hds0.2
            rw [hsuf, List.drop_eq_nil_of_le (by omega)]
            rfl
          have hdomne : (splitOnDot ((stripWww (schemeHost (rstripDots
              (Markov.trim raw)))).map Char.toLower)).getD j [] ≠ [] := by
            rw [← hdom]
            exact hds0.1
          unfold policyAndChecks at h
          split at h
          · exact absurd h (by simp)
          · next htld0 =>
            rw [hsuf] at htld0
            have plainCase :
                finalChecks ((extract ((stripWww (schemeHost (rstripDots
                    (Markov.trim raw)))).map Char.toLower)).2.1 ++ '.' ::
                  (extract ((stripWww (schemeHost (rstripDots
                    (Markov.trim raw)))).map Char.toLower)).2.2) = (some d', none) →
                process_domain d' t ao as gd gs = (some d', none) := by
              intro hfin
              have hd'eq := finalChecks_inv hfin
              rw [← hd'eq] at hfin
              refine rerun_plain _ d' t ao as gd gs j hWchars hi hjlt hdomne htld0
                ?_ hfin hwww
              rw [hd'eq, hdom, hsuf]
            split at h
            · next hlt0 =>
              rw [hsuf] at hlt0
              split at h
              · next hgov0 =>
                rw [hsuf, hdom] at hgov0
                split at h
                · next hsubne0 =>
                  rw [hsub] at hsubne0
                  have hd'eq := finalChecks_inv h
                  rw [← hd'eq] at h
                  refine rerun_sub _ d' t ao as gd gs j hWchars hi hjlt hdomne htld0
                    hlt0 hgov0 hsubne0 ?_ h hwww
                  rw [hd'eq, hsub, hdom, hsuf]
                · exact plainCase h
              · split at h
                · exact absurd h (by simp)
                · exact plainCase h
            · split at h
              · exact absurd h (by simp)
              · exact plainCase h

/-- Witness for the amended C1 theorem at a concrete accepted input. -/
theorem process_domain_idempotent_amended_witness :
    (process_domain "WWW.Example.LT".toList (some "lt".toList) false false [] [] =
        (some "example.lt".toList, none) ∧
      ("example.lt".toList : List Char).take 4 ≠ ['w', 'w', 'w', '.']) ∧
    process_domain "example.lt".toList (some "lt".toList) false false [] [] =
      (some "example.lt".toList, none) :=
  ⟨⟨by decide, by decide⟩,
    process_domain_idempotent_amended "WWW.Example.LT".toList (some "lt".toList)
      false false [] [] "example.lt".toList (by decide) (by decide)⟩

/-- Counterexample to C1 as stated: `"www.www.lrv.lt"` is accepted as
`"www.lrv.lt"` (a government domain keeping its `www` subdomain label), but
re-running the validator on that accepted output strips the `www.` prefix
and returns `("lrv.lt", none)`, not `("www.lrv.lt", none)`. -/
theorem process_domain_not_idempotent :
    process_domain "www.www.lrv.lt".toList (some "lt".toList) false false [] [] =
      (some "www.lrv.lt".toList, none) ∧
    process_domain "www.lrv.lt".toList (some "lt".toList) false false [] [] =
      (some "lrv.lt".toList, none) ∧
    ("lrv.lt".toList : List Char) ≠ "www.lrv.lt".toList := by
  refine ⟨by decide, by decide, by decide⟩

end Cleanup
